import Mathlib

/-!
Verification of the PTools document formatter, markup-token extractor and
card-list injector (`src/main.py`) against its natural-language specification.

The Python code operates on lxml element trees.  We shallowly embed the tree
data model (tag, attributes, text, children, tail) as a mutual inductive
`Elem`/`ElemList` and translate each tree transformation of the source into a
structurally recursive Lean function:

* `process_text`    — `main.py` lines 28–49 (annotation-token consumption);
* `process_markup`  — `main.py` lines 52–65 (recursive text/tail scan);
* `fixAllE`/`fixPreTop` — `main.py` lines 86–89 (`<pre><code>` same-line rule);
* `purgeL`          — `main.py` lines 350–354 (stale card removal);
* `spliceL`/`injectCards` — `main.py` lines 357–430 (placeholder splice);
* `pretty_print_html` — `main.py` lines 23–128 (two-tier parse control flow),
  parametrised by an oracle for the external lxml parser/serializer.

Python `re` searches are modelled by executable scanners over `List Char`
(`splitFirstL` for `str.split(pat, 1)` / `in`, `findTokL` for the regex
`%%c:([^%]+)%%`, whose leftmost-match semantics are proved as lemmas).
-/

/-- Python treats these characters as whitespace for `str.strip()`. -/
def isWsChar (c : Char) : Bool :=
  c = ' ' || c = '\t' || c = '\n' || c = '\r' || c = '\x0b' || c = '\x0c'

/-- Strip leading and trailing whitespace from a character list (Python `str.strip`). -/
def trimL (l : List Char) : List Char :=
  ((l.dropWhile isWsChar).reverse.dropWhile isWsChar).reverse

/-- Strip leading and trailing whitespace from a string (Python `str.strip`). -/
def trimS (s : String) : String := String.mk (trimL s.toList)

/-- Does `s` start with `pat`? -/
def startsWithL : List Char → List Char → Bool
  | [], _ => true
  | _ :: _, [] => false
  | p :: ps, c :: cs => p = c && startsWithL ps cs

/-- Split `s` at the first (leftmost) occurrence of `pat`, dropping the
occurrence itself: the model of Python `s.split(pat, 1)` for a pattern that
occurs, and of the `pat in s` test (via `Option.isSome`). -/
def splitFirstL (pat : List Char) : List Char → Option (List Char × List Char)
  | [] => if startsWithL pat [] then some ([], []) else none
  | c :: rest =>
    if startsWithL pat (c :: rest) then some ([], (c :: rest).drop pat.length)
    else
      match splitFirstL pat rest with
      | some (a, b) => some (c :: a, b)
      | none => none

/-- Python `pat in s`. -/
def hasSub (s pat : String) : Bool := (splitFirstL pat.toList s.toList).isSome

/-- Python `s.split(pat, 1)` (leftmost split), on strings. -/
def splitFirstS (pat s : String) : Option (String × String) :=
  match splitFirstL pat.toList s.toList with
  | some (a, b) => some (String.mk a, String.mk b)
  | none => none

/-- The character class `[^%]`. -/
def notPct (c : Char) : Bool := c != '%'

/-- Try to match the regex `%%c:([^%]+)%%` at the head of the list: the
literal `%%c:`, then a nonempty run of non-`%` characters (the class list),
then `%%`.  Returns the class-list group and the remainder after the match.
Greedy matching with backtracking cannot shorten the `[^%]+` run (a shorter
run would require a non-`%` character to equal `%`), so a head match exists
iff this shape is present. -/
def tokenAt : List Char → Option (List Char × List Char)
  | '%' :: '%' :: 'c' :: ':' :: rest =>
    let cls := rest.takeWhile notPct
    match rest.dropWhile notPct with
    | '%' :: '%' :: tl => if cls.isEmpty then none else some (cls, tl)
    | _ => none
  | _ => none

/-- Leftmost match of `%%c:([^%]+)%%` in a character list: returns
`(before, classGroup, after)`.  Models `re.search` / `re.sub(count=1)`. -/
def findTokL : List Char → Option (List Char × List Char × List Char)
  | [] => none
  | c :: rest =>
    match tokenAt (c :: rest) with
    | some (cls, after) => some ([], cls, after)
    | none =>
      match findTokL rest with
      | some (a, cls, after) => some (c :: a, cls, after)
      | none => none

/-- Leftmost match of `%%c:([^%]+)%%` in a string. -/
def findTokS (s : String) : Option (String × String × String) :=
  match findTokL s.toList with
  | some (a, cls, b) => some (String.mk a, String.mk cls, String.mk b)
  | none => none

/-- Python `s.split(",")`: split a character list at every comma (the empty
list yields one empty group, like `"".split(",") == [""]`). -/
def splitCommaL : List Char → List (List Char)
  | [] => [[]]
  | c :: rest =>
    if c = ',' then [] :: splitCommaL rest
    else
      match splitCommaL rest with
      | [] => [[c]]
      | g :: gs => (c :: g) :: gs

/-- Parse the comma-separated class list of an annotation token exactly as
`process_text` does (`main.py` lines 35–37): strip the whole group, split on
commas, strip each entry, drop empties. -/
def splitClasses (clsStr : String) : List String :=
  ((splitCommaL (trimL clsStr.toList)).map (fun l => String.mk (trimL l))).filter
    (fun c => c ≠ "")

/-- Space-join a class list (Python `" ".join`). -/
def joinSp : List String → String
  | [] => ""
  | [c] => c
  | c :: d :: rest => c ++ " " ++ joinSp (d :: rest)

/-- Model of `process_text(text, owner)` (`main.py` lines 28–49).  The owner
is given by its tag together with the current value of its `class` attribute
(`None` when absent); the function returns the new text and the new `class`
value.  Both call sites in the source pass a non-`None` owner, so the owner
is not optional here. -/
def process_text (text : String) (ownerTag : String) (ownerCls : Option String) :
    String × Option String :=
  if ownerTag = "pre" ∨ ownerTag = "code" then (text, ownerCls)
  else
    match findTokS text with
    | none => (text, ownerCls)
    | some (a, cls, b) =>
      let classes := splitClasses cls
      let newText := a ++ b
      if classes = [] then (newText, ownerCls)
      else
        match ownerCls with
        | some ex =>
          if ex = "" then (newText, some (joinSp classes))
          else (newText, some (ex ++ " " ++ joinSp classes))
        | none => (newText, some (joinSp classes))

/-- The text of `process_text`, ignoring the class update (used to state that
text rewriting does not depend on the owner's current classes). -/
def processTextStr (text : String) (ownerTag : String) : String :=
  (process_text text ownerTag none).1

/-- One text/tail scan step of `process_markup`: the Python guard
`if s and "%%" in s` followed by `process_text` (`main.py` lines 54–56 and
62–65). -/
def scanOpt (x : Option String) (ownerTag : String) (ownerCls : Option String) :
    Option String × Option String :=
  match x with
  | none => (none, ownerCls)
  | some t =>
    if t = "" then (some t, ownerCls)
    else if hasSub t "%%" then
      let r := process_text t ownerTag ownerCls
      (some r.1, r.2)
    else (some t, ownerCls)

/-- The text component of `scanOpt`. -/
def scanStr (x : Option String) (ownerTag : String) : Option String :=
  (scanOpt x ownerTag none).1

mutual
/-- A parsed HTML element: tag, attribute list, text (content after the
opening tag), children, tail (content after the closing tag).  This mirrors
the lxml element data model used by `main.py`. -/
inductive Elem : Type where
  | mk : String → List (String × String) → Option String → ElemList → Option String → Elem
  deriving DecidableEq
/-- The ordered children of an element. -/
inductive ElemList : Type where
  | nil : ElemList
  | cons : Elem → ElemList → ElemList
  deriving DecidableEq
end

def Elem.tag : Elem → String
  | .mk t _ _ _ _ => t

def Elem.attrs : Elem → List (String × String)
  | .mk _ a _ _ _ => a

def Elem.text : Elem → Option String
  | .mk _ _ x _ _ => x

def Elem.children : Elem → ElemList
  | .mk _ _ _ cs _ => cs

def Elem.tail : Elem → Option String
  | .mk _ _ _ _ tl => tl

def Elem.withTail (e : Elem) (tl : Option String) : Elem :=
  match e with
  | .mk t a x cs _ => .mk t a x cs tl

def Elem.withChildren (e : Elem) (cs : ElemList) : Elem :=
  match e with
  | .mk t a x _ tl => .mk t a x cs tl

def ElemList.append : ElemList → ElemList → ElemList
  | .nil, ys => ys
  | .cons x xs, ys => .cons x (ElemList.append xs ys)

/-- Attribute lookup (lxml `element.get(name)`). -/
def getAttr : List (String × String) → String → Option String
  | [], _ => none
  | (k, v) :: rest, key => if k = key then some v else getAttr rest key

/-- Attribute update (lxml `element.set(name, value)`): replaces the value in
place if the key exists, appends otherwise. -/
def setAttr : List (String × String) → String → String → List (String × String)
  | [], key, val => [(key, val)]
  | (k, v) :: rest, key, val =>
    if k = key then (k, val) :: rest else (k, v) :: setAttr rest key val

/-- Install the final `class` value computed by a scan: the attribute list is
written only if some `process_text` call actually changed the class (each
write strictly grows the value, so change of value coincides with a write
having happened). -/
def updateClass (attrs : List (String × String)) (cls0 cls2 : Option String) :
    List (String × String) :=
  if cls2 = cls0 then attrs
  else
    match cls2 with
    | some v => setAttr attrs "class" v
    | none => attrs

mutual
/-- Model of `process_markup(element, skip)` (`main.py` lines 52–60): scan the
element's own text unless `skip` is set (owner: the element itself), then
recurse into the children with `skip ∨ tag ∈ {pre, code}`.  Each child's tail
is handled by `pmChildren` at this level, because its owner is this element
(`element.getparent()` in the source); the argument element's own tail is the
caller's business and is left untouched (for the root it is never processed,
matching the `parent is not None` guard on line 64). -/
def process_markup (skip : Bool) : Elem → Elem
  | .mk tag attrs text kids tail =>
    let cls0 := getAttr attrs "class"
    let r1 := if skip then (text, cls0) else scanOpt text tag cls0
    let cSkip := skip || tag = "pre" || tag = "code"
    let r2 := pmChildren cSkip tag r1.2 kids
    .mk tag (updateClass attrs cls0 r2.2) r1.1 r2.1 tail

/-- Process a list of siblings: each child is processed recursively, then its
tail is scanned with the parent as owner (`main.py` lines 61–65), threading
the parent's accumulating `class` value left to right. -/
def pmChildren (skip : Bool) (ownerTag : String) (ownerCls : Option String) :
    ElemList → ElemList × Option String
  | .nil => (.nil, ownerCls)
  | .cons c rest =>
    let c' := process_markup skip c
    let rt := scanOpt c'.tail ownerTag ownerCls
    let rr := pmChildren skip ownerTag rt.2 rest
    (.cons (c'.withTail rt.1) rr.1, rr.2)
end

/-- Is a string blank (empty or whitespace only)? -/
def isBlankStr (s : String) : Bool := s.toList.all isWsChar

/-- Is an optional text/tail slot blank?  (`None` counts as blank, as for
lxml's indenter.) -/
def blankOpt : Option String → Bool
  | none => true
  | some s => isBlankStr s

/-- Four spaces per level. -/
def padSpaces : Nat → String
  | 0 => ""
  | n + 1 => padSpaces n ++ "    "

/-- The canonical indentation string placed before a construct at depth
`lvl`: a newline plus `4 * lvl` spaces. -/
def padStr (lvl : Nat) : String := "\n" ++ padSpaces lvl

/-- Replace a blank slot by canonical indentation, leave non-blank content
untouched. -/
def reblank (x : Option String) (lvl : Nat) : Option String :=
  if blankOpt x then some (padStr lvl) else x

mutual
/-- Modelled from the spec: `etree.indent(root, space="    ")` (`main.py`
line 83) is part of the external lxml collaborator, absent from `src/`; the
spec describes it as re-indenting every element's content by 4-space
increments per nesting depth, affecting only whitespace formatting nodes and
leaving non-whitespace text untouched.  For an element at depth `lvl` that
has children, its text (if blank) becomes the indentation of depth
`lvl + 1`, and each child's tail (if blank) becomes the indentation of the
following construct: depth `lvl + 1` before a further sibling, depth `lvl`
before the parent's closing tag. -/
def indentE (lvl : Nat) : Elem → Elem
  | .mk tag attrs text kids tail =>
    match kids with
    | .nil => .mk tag attrs text .nil tail
    | .cons c rest =>
      .mk tag attrs (reblank text (lvl + 1)) (indentKids lvl (.cons c rest)) tail

/-- Indent a nonempty list of children of an element at depth `lvl`. -/
def indentKids (lvl : Nat) : ElemList → ElemList
  | .nil => .nil
  | .cons c .nil => .cons ((indentE (lvl + 1) c).withTail (reblank c.tail lvl)) .nil
  | .cons c (.cons d rest) =>
    .cons ((indentE (lvl + 1) c).withTail (reblank c.tail (lvl + 1)))
      (indentKids lvl (.cons d rest))
end

mutual
/-- Apply the `<pre><code>` same-line rule (`main.py` lines 86–89) at this
node and everywhere below: whenever an element has tag `pre` and its first
child has tag `code`, clear the element's text and force the first child's
tail to a single newline.  The source collects all matches of the XPath
`.//pre` first and then mutates; since each adjustment touches fields
(`pre.text`, `pre[0].tail`) disjoint from every other adjustment's fields
and from the match conditions (tags and child structure, which the whole
pass preserves — in particular recursion never rewrites an element's own
tail or tag), the batch mutation equals this recursive application with the
node's own adjustment performed after the recursion into its children. -/
def fixAllE : Elem → Elem
  | .mk tag attrs text kids tail =>
    match fixAllL kids with
    | .cons c rest =>
      if tag = "pre" ∧ c.tag = "code" then
        .mk tag attrs none (.cons (c.withTail (some "\n")) rest) tail
      else
        .mk tag attrs text (.cons c rest) tail
    | .nil => .mk tag attrs text .nil tail

def fixAllL : ElemList → ElemList
  | .nil => .nil
  | .cons c rest => .cons (fixAllE c) (fixAllL rest)
end

/-- The XPath `.//pre` selects proper descendants only, so the root element
itself is never adjusted. -/
def fixPreTop (e : Elem) : Elem := e.withChildren (fixAllL e.children)

/-- The complete tree-level pass of the primary formatting path (`main.py`
lines 83–92): canonical indentation, the `<pre><code>` same-line rule, then
markup-token extraction.  Parsing and serialization, which surround this
pass, belong to the external black-box parser. -/
def formatTree (e : Elem) : Elem := process_markup false (fixPreTop (indentE 0 e))

/-- Is an element a stale card in the sense of the purge XPath
`//div[contains(@class, "card")]` (`main.py` line 350): tag exactly `div`,
and the string `card` occurring as a substring of the `class` attribute
(an absent attribute reads as the empty string)? -/
def isStaleCard (e : Elem) : Bool :=
  e.tag = "div" && hasSub ((getAttr e.attrs "class").getD "") "card"

mutual
/-- Stale-card purge (`main.py` lines 350–354): every matching `div` is
detached from its parent.  Collecting all matches first and then removing
them yields the same tree as this recursive filter, because a match nested
inside a removed match disappears with its detached ancestor either way.
The root element (lxml always parses to an `html` root) has no parent and is
never removed. -/
def purgeE : Elem → Elem
  | .mk tag attrs text kids tail => .mk tag attrs text (purgeL kids) tail

def purgeL : ElemList → ElemList
  | .nil => .nil
  | .cons c rest =>
    if isStaleCard c then purgeL rest
    else .cons (purgeE c) (purgeL rest)
end

/-- Does a text/tail slot trigger the placeholder test
`if s and "%%card%%" in s` (`main.py` lines 359 and 395)? -/
def hasTok (x : Option String) : Bool :=
  match x with
  | none => false
  | some t => !(t = "") && hasSub t "%%card%%"

/-- Attach the text remaining after the placeholder to the tail of the last
card fragment, prepending it to any existing tail (`main.py` lines 379–388
and 415–423). -/
def attachAfter (after : String) : ElemList → ElemList
  | .nil => .nil
  | .cons c .nil =>
    .cons (c.withTail (match c.tail with
      | some t => if t = "" then some after else some (after ++ t)
      | none => some after)) .nil
  | .cons c (.cons d rest) => .cons c (attachAfter after (.cons d rest))

/-- Text-case splice (`main.py` lines 359–394): split the element's text at
the first `%%card%%`, keep the part before it as the text (`None` if empty),
insert the card fragments in order at the front of the children, and attach
the part after the token to the last fragment's tail — or, when there are no
fragments, write it over the element's own tail. -/
def spliceTextCase (cards : ElemList) : Elem → Elem
  | .mk tag attrs text kids tail =>
    match text with
    | none => .mk tag attrs text kids tail
    | some t =>
      match splitFirstS "%%card%%" t with
      | none => .mk tag attrs text kids tail
      | some (before, after) =>
        let text' := if before = "" then none else some before
        match cards with
        | .nil =>
          if after = "" then .mk tag attrs text' kids tail
          else .mk tag attrs text' kids (some after)
        | .cons c crest =>
          let cards' :=
            if after = "" then ElemList.cons c crest
            else attachAfter after (.cons c crest)
          .mk tag attrs text' (ElemList.append cards' kids) tail

/-- Tail-case splice (`main.py` lines 395–430): split the element's tail at
the first `%%card%%`, keep the part before it as the tail (`None` if empty),
insert the card fragments as following siblings, and attach the part after
the token to the last fragment's tail; with zero fragments that part is
dropped (the source's acknowledged gap). -/
def spliceTailCase (cards : ElemList) (c : Elem) (rest : ElemList) : ElemList :=
  match c.tail with
  | none => .cons c rest
  | some t =>
    match splitFirstS "%%card%%" t with
    | none => .cons c rest
    | some (before, after) =>
      let c' := c.withTail (if before = "" then none else some before)
      let cards' :=
        match cards with
        | .nil => ElemList.nil
        | .cons d drest =>
          if after = "" then ElemList.cons d drest
          else attachAfter after (.cons d drest)
      .cons c' (ElemList.append cards' rest)

/-- The placeholder search over a sibling list, in the order of
`tree.iter()` with the loop body of `main.py` lines 358–430: for each
element, first its text, then its tail, then its children, then the later
siblings; the whole traversal stops at the first splice.  Returns `none`
when no slot in the forest contains `%%card%%`. -/
def spliceL (cards : ElemList) : ElemList → Option ElemList
  | .nil => none
  | .cons (.mk tag attrs text kids tail) rest =>
    if hasTok text then
      some (.cons (spliceTextCase cards (.mk tag attrs text kids tail)) rest)
    else if hasTok tail then
      some (spliceTailCase cards (.mk tag attrs text kids tail) rest)
    else
      match spliceL cards kids with
      | some kids' => some (.cons (.mk tag attrs text kids' tail) rest)
      | none =>
        match spliceL cards rest with
        | some rest' => some (.cons (.mk tag attrs text kids tail) rest')
        | none => none

/-- The full injector traversal (`main.py` lines 357–434) on the parsed list
document: the root's text is examined first; the root's tail is skipped
(`getparent()` is `None`, line 398 `continue`); then the descendants.  The
`cards` are the element fragments parsed from the rendered card HTML (string
fragments are skipped by both insertion loops in the source).  `none` models
the `PlaceholderNotFound` failure (`main.py` line 432). -/
def injectCards (cards : ElemList) (root : Elem) : Option Elem :=
  if hasTok root.text then some (spliceTextCase cards root)
  else
    match spliceL cards root.children with
    | some kids' => some (root.withChildren kids')
    | none => none

/-- Case-insensitive prefix test. -/
def startsWithCIL : List Char → List Char → Bool
  | [], _ => true
  | _ :: _, [] => false
  | p :: ps, c :: cs => p.toLower = c.toLower && startsWithCIL ps cs

/-- Match of `<!DOCTYPE[^>]*>` (case-insensitive) at the head of the list:
the literal, then everything up to and including the first `>`; with no
closing `>` the position does not match. -/
def doctypeAt (s : List Char) : Option (List Char × List Char) :=
  if startsWithCIL "<!doctype".toList s then
    match splitFirstL ['>'] (s.drop 9) with
    | some (body, after) => some (s.take 9 ++ body ++ ['>'], after)
    | none => none
  else none

/-- Leftmost match of `<!DOCTYPE[^>]*>`, as `(before, declaration, after)`. -/
def findDoctype : List Char → Option (List Char × List Char × List Char)
  | [] => none
  | c :: rest =>
    match doctypeAt (c :: rest) with
    | some (decl, after) => some ([], decl, after)
    | none =>
      match findDoctype rest with
      | some (b, d, a) => some (c :: b, d, a)
      | none => none

/-- Step 1 of `pretty_print_html` (`main.py` lines 68–76): locate a doctype
declaration; if absent, `before` and `doctype` are empty and `after` is the
whole input. -/
def splitDoctype (s : String) : String × String × String :=
  match findDoctype s.toList with
  | some (b, d, a) => (String.mk b, String.mk d, String.mk a)
  | none => ("", "", s)

/-- A top-level fragment as returned by lxml `fragments_fromstring`: bare
text or an element. -/
inductive Frag : Type where
  | txt : String → Frag
  | elem : Elem → Frag

/-- The external lxml collaborator, as an oracle: each operation may raise
(modelled as `Except`).  `docFrom` is `html.document_fromstring`, `fragsFrom`
is `html.fragments_fromstring`, `indentOr` is `etree.indent`, `toStr` is
`etree.tostring`. -/
structure HtmlOracle : Type where
  docFrom : String → Except String Elem
  fragsFrom : String → Except String (List Frag)
  indentOr : Elem → Except String Elem
  toStr : Elem → Except String String

/-- The primary path of `pretty_print_html` (`main.py` lines 78–98, inside
the first `try`): full-document parse of the content after the doctype,
indentation, the `<pre><code>` rule, markup extraction, serialization.  Any
raise anywhere in the chain aborts the whole path. -/
def primaryPath (o : HtmlOracle) (after : String) : Except String String := do
  let root ← o.docFrom after
  let root ← o.indentOr root
  let root := fixPreTop root
  let root := process_markup false root
  o.toStr root

/-- One fragment of the fallback path (`main.py` lines 106–124): bare text
passes through verbatim; for an element, an indentation failure is swallowed
(the fragment continues unindented), then the `<pre><code>` rule and markup
extraction are applied and the fragment is serialized (a serialization raise
aborts the whole fallback). -/
def fragPart (o : HtmlOracle) : Frag → Except String String
  | .txt s => pure s
  | .elem e =>
    let e1 := match o.indentOr e with
      | .ok x => x
      | .error _ => e
    o.toStr (process_markup false (fixPreTop e1))

/-- The fallback path (`main.py` lines 103–125): fragment-parse the original
raw input and concatenate the per-fragment outputs in order. -/
def fallbackPath (o : HtmlOracle) (raw : String) : Except String String := do
  let frags ← o.fragsFrom raw
  let parts ← frags.mapM (fragPart o)
  pure (String.join parts)

/-- Model of `pretty_print_html` (`main.py` lines 23–128).  The function is
total — every internal failure is recovered: a primary-path raise falls back
to fragment mode on the original raw input (not on the doctype-stripped
remainder), and a fallback raise returns the raw input unchanged. -/
def pretty_print_html (o : HtmlOracle) (html_str : String) : String :=
  let parts := splitDoctype html_str
  match primaryPath o parts.2.2 with
  | .ok s => parts.1 ++ parts.2.1 ++ "\n" ++ s
  | .error _ =>
    match fallbackPath o html_str with
    | .ok s => s
    | .error _ => html_str

mutual
/-- All text slots of a subtree, in document order (own text first). -/
def textsE : Elem → List (Option String)
  | .mk _ _ x kids _ => x :: textsL kids

def textsL : ElemList → List (Option String)
  | .nil => []
  | .cons c rest => textsE c ++ textsL rest
end

mutual
/-- All tail slots strictly inside a subtree (the root's own tail belongs to
the enclosing context and is excluded). -/
def tailsInE : Elem → List (Option String)
  | .mk _ _ _ kids _ => tailsInL kids

def tailsInL : ElemList → List (Option String)
  | .nil => []
  | .cons (.mk t a x kids tl) rest =>
    tl :: (tailsInE (.mk t a x kids tl) ++ tailsInL rest)
end

mutual
/-- The shape of an element with text, tails and the `class` attribute
erased: tag, the other attributes in order, and the children's shapes. -/
inductive Skel : Type where
  | mk : String → List (String × String) → SkelList → Skel
  deriving DecidableEq

inductive SkelList : Type where
  | nil : SkelList
  | cons : Skel → SkelList → SkelList
  deriving DecidableEq
end

/-- Keep every attribute entry except `class`. -/
def notClassAttr (p : String × String) : Bool := p.1 != "class"

mutual
def skelE : Elem → Skel
  | .mk tag attrs _ kids _ =>
    .mk tag (attrs.filter notClassAttr) (skelL kids)

def skelL : ElemList → SkelList
  | .nil => .nil
  | .cons c rest => .cons (skelE c) (skelL rest)
end

/-- No text or tail slot of the forest contains `%%card%%` (in the sense of
the source's guard `if s and "%%card%%" in s`). -/
def tokFreeL : ElemList → Bool
  | .nil => true
  | .cons (.mk _ _ x kids tl) rest =>
    !hasTok x && !hasTok tl && tokFreeL kids && tokFreeL rest

/-- No element of the forest is a stale card. -/
def staleFreeL : ElemList → Bool
  | .nil => true
  | .cons (.mk tag attrs x kids tl) rest =>
    !isStaleCard (.mk tag attrs x kids tl) && staleFreeL kids && staleFreeL rest

/-- Delete annotation tokens from a character list, leftmost first, until
none remains (fuelled by the length; each deletion strictly shortens the
list). -/
def stripToksAux : Nat → List Char → List Char
  | 0, s => s
  | n + 1, s =>
    match findTokL s with
    | none => s
    | some (a, _, b) => stripToksAux n (a ++ b)

def stripToksL (s : List Char) : List Char := stripToksAux s.length s

/-- The semantic content of a text/tail slot: its characters with annotation
tokens deleted and whitespace removed. -/
def semStr (x : Option String) : List Char :=
  match x with
  | none => []
  | some s => (stripToksL s.toList).filter (fun c => !isWsChar c)

mutual
/-- The semantic content of a subtree: the concatenation over document order
of the semantic content of every text and tail slot (the root's own tail,
which no formatting pass ever touches, is excluded). -/
def semE : Elem → List Char
  | .mk _ _ x kids _ => semStr x ++ semL kids

def semL : ElemList → List Char
  | .nil => []
  | .cons (.mk t a x kids tl) rest =>
    semE (.mk t a x kids tl) ++ semStr tl ++ semL rest
end

/-- No text or tail slot of the forest contains the marker `%%`. -/
def noDblStr (x : Option String) : Bool :=
  match x with
  | none => true
  | some s => !hasSub s "%%"

def noDblL : ElemList → Bool
  | .nil => true
  | .cons (.mk _ _ x kids tl) rest =>
    noDblStr x && noDblStr tl && noDblL kids && noDblL rest

mutual
/-- Every `pre` element with a `code` first child has semantically blank
leading text, and that `code` child a semantically blank tail (the slots the
`<pre><code>` rule overwrites). -/
def okPreE : Elem → Bool
  | .mk tag _ x kids _ =>
    (match kids with
     | .cons c _ =>
       if tag = "pre" ∧ c.tag = "code" then
         (semStr x).isEmpty && (semStr c.tail).isEmpty
       else true
     | .nil => true)
    && okPreL kids

def okPreL : ElemList → Bool
  | .nil => true
  | .cons c rest => okPreE c && okPreL rest
end

/-- No text or tail slot of the subtree (the root's own tail aside) contains
the marker `%%`. -/
def noDblE : Elem → Bool
  | .mk _ _ x kids _ => noDblStr x && noDblL kids

/-- The literal head of an annotation token. -/
def tokHead : List Char := ['%', '%', 'c', ':']

/-- The literal closer of an annotation token. -/
def tokClose : List Char := ['%', '%']

/-- A valid decomposition of `s` exhibiting an annotation-token occurrence
with prefix `a`, class group `cls` and remainder `b`. -/
def TokSplit (s a cls b : List Char) : Prop :=
  s = a ++ tokHead ++ cls ++ tokClose ++ b ∧ cls ≠ [] ∧ ∀ c ∈ cls, c ≠ '%'

/-- A decomposition of the string `s` exhibiting an annotation-token
occurrence with prefix `a`, class group `cls` (nonempty, `%`-free) and
remainder `b` — the spec-level notion of an annotation token occurring in a
text or tail string. -/
def TokSplitS (s a cls b : String) : Prop :=
  s = a ++ "%%c:" ++ cls ++ "%%" ++ b ∧ cls ≠ "" ∧ ∀ c ∈ cls.toList, c ≠ '%'

/-- An oracle whose parser raises on both the full-document and the
fragment path. -/
def failOracle : HtmlOracle :=
  ⟨fun _ => .error "parse", fun _ => .error "frag", fun e => .ok e, fun _ => .ok ""⟩

/-- One normalization round at depth `lvl`: indentation followed by the
`<pre><code>` rule, as applied below the document root. -/
def roundE (lvl : Nat) (e : Elem) : Elem := fixAllE (indentE lvl e)

/-- The action of `fixAllL` composed with `indentKids` on a sibling list,
expressed element-wise: each element goes through a full round one level
deeper and its tail is re-blanked at the position-dependent depth. -/
def adjRound (lvl : Nat) : ElemList → ElemList
  | .nil => .nil
  | .cons c .nil =>
    .cons ((roundE (lvl + 1) c).withTail (reblank c.tail lvl)) .nil
  | .cons c (.cons d rest) =>
    .cons ((roundE (lvl + 1) c).withTail (reblank c.tail (lvl + 1)))
      (adjRound lvl (.cons d rest))

/-- A well-formed document whose `pre` element carries non-blank leading
text before its `code` child. -/
def preHelloDoc : Elem :=
  .mk "html" [] none
    (.cons (.mk "body" [] none
      (.cons (.mk "pre" [] (some "hello")
        (.cons (.mk "code" [] (some "x") .nil none) .nil) none) .nil) none) .nil) none

/-- A well-formed document whose `pre`/`code` slots are whitespace only. -/
def preBlankDoc : Elem :=
  .mk "html" [] none
    (.cons (.mk "body" [] none
      (.cons (.mk "p" [] (some "Hi %%c:big%% there") .nil (some "\n"))
      (.cons (.mk "pre" [] (some "\n  ")
        (.cons (.mk "code" [] (some "let x = 1") .nil (some " ")) .nil) (some "\n"))
        .nil)) none) .nil) none

/-- A well-formed document holding two annotation tokens in one text. -/
def twoTokDoc : Elem :=
  .mk "html" [] none
    (.cons (.mk "body" [] none
      (.cons (.mk "p" [] (some "a %%c:x%% b %%c:y%% c") .nil none) .nil) none)
      .nil) none

/-- A token-free well-formed document with a `pre`/`code` pair. -/
def plainDoc : Elem :=
  .mk "html" [] none
    (.cons (.mk "body" [] none
      (.cons (.mk "p" [] (some "Hello world") .nil (some "\n"))
      (.cons (.mk "pre" [] (some "\n  ")
        (.cons (.mk "code" [] (some "let x = 1") .nil none) .nil) none) .nil)) none)
      .nil) none

theorem mk_toList (s : String) : String.mk s.toList = s := by
  cases s
  rfl

theorem mk_append (a b : List Char) : String.mk (a ++ b) = String.mk a ++ String.mk b := by
  rfl

theorem toList_append (s t : String) : (s ++ t).toList = s.toList ++ t.toList := by
  cases s
  cases t
  rfl

theorem length_mk (l : List Char) : (String.mk l).length = l.length := by
  rfl

theorem notPct_iff (c : Char) : notPct c = true ↔ c ≠ '%' := by
  simp [notPct]

theorem takeWhile_pctFree (l b : List Char) (h : ∀ c ∈ l, c ≠ '%') :
    (l ++ '%' :: b).takeWhile notPct = l ∧ (l ++ '%' :: b).dropWhile notPct = '%' :: b := by
  induction l with
  | nil =>
    rw [List.nil_append, List.takeWhile_cons, List.dropWhile_cons]
    have hpc : notPct '%' = false := by simp [notPct]
    rw [hpc]
    simp
  | cons x xs ih =>
    have hx : notPct x = true := (notPct_iff x).2 (h x (List.mem_cons_self x xs))
    have ihr := ih (fun c hc => h c (List.mem_cons_of_mem x hc))
    rw [List.cons_append, List.takeWhile_cons, List.dropWhile_cons, hx]
    simp [ihr.1, ihr.2]

theorem tokenAt_sound (s cls b : List Char) (h : tokenAt s = some (cls, b)) :
    TokSplit s [] cls b := by
  rw [tokenAt.eq_def] at h
  split at h
  · rename_i rest
    simp only [] at h
    split at h
    · rename_i tl heq
      split at h
      · exact absurd h (by simp)
      · rename_i hne
        injection h with h'
        injection h' with hcls hb
        subst hcls
        subst hb
        have hsplit := List.takeWhile_append_dropWhile notPct rest
        rw [heq] at hsplit
        refine ⟨?_, ?_, ?_⟩
        · show '%' :: '%' :: 'c' :: ':' :: rest = _
          rw [List.nil_append]
          have hshape : tokHead ++ rest.takeWhile notPct ++ tokClose ++ tl =
              '%' :: '%' :: 'c' :: ':' :: (rest.takeWhile notPct ++ '%' :: '%' :: tl) := by
            simp [tokHead, tokClose]
          rw [hshape, hsplit]
        · intro habs
          rw [habs] at hne
          simp at hne
        · intro c hc
          exact (notPct_iff c).1 (List.mem_takeWhile_imp hc)
    · exact absurd h (by simp)
  · exact absurd h (by simp)

theorem tokenAt_complete (cls b : List Char) (h1 : cls ≠ []) (h2 : ∀ c ∈ cls, c ≠ '%') :
    tokenAt (tokHead ++ cls ++ tokClose ++ b) = some (cls, b) := by
  have hshape : tokHead ++ cls ++ tokClose ++ b =
      '%' :: '%' :: 'c' :: ':' :: (cls ++ '%' :: '%' :: b) := by
    simp [tokHead, tokClose]
  rw [hshape]
  have htw := takeWhile_pctFree cls ('%' :: b) h2
  have hemp : cls.isEmpty = false := by
    cases cls with
    | nil => exact absurd rfl h1
    | cons x xs => rfl
  rw [tokenAt.eq_def]
  simp only [htw.1, htw.2, hemp, Bool.false_eq_true, if_false]

theorem findTokL_sound (s : List Char) :
    ∀ a cls b, findTokL s = some (a, cls, b) → TokSplit s a cls b := by
  induction s with
  | nil => intro a cls b h; exact absurd h (by simp [findTokL])
  | cons c rest ih =>
    intro a cls b h
    simp only [findTokL] at h
    split at h
    · rename_i cls0 after0 heq
      injection h with h'
      injection h' with h1 h2
      injection h2 with h2 h3
      subst h1; subst h2; subst h3
      exact tokenAt_sound _ _ _ heq
    · rename_i heq
      split at h
      · rename_i a0 cls0 b0 hrest
        injection h with h'
        injection h' with h1 h2
        injection h2 with h2 h3
        subst h1; subst h2; subst h3
        obtain ⟨hs, hne, hfree⟩ := ih a0 cls0 b0 hrest
        refine ⟨?_, hne, hfree⟩
        rw [hs]
        simp [List.append_assoc]
      · exact absurd h (by simp)

theorem consTokSplit (c : Char) (rest a cls b : List Char)
    (hs : c :: rest = (c :: a) ++ tokHead ++ cls ++ tokClose ++ b) :
    rest = a ++ tokHead ++ cls ++ tokClose ++ b := by
  simp only [List.cons_append, List.append_assoc] at hs ⊢
  injection hs with _ h2

theorem findTokL_isSome (s : List Char) :
    ∀ a cls b, TokSplit s a cls b → (findTokL s).isSome = true := by
  induction s with
  | nil =>
    intro a cls b h
    obtain ⟨hs, _, _⟩ := h
    exact absurd hs.symm (by simp [tokHead])
  | cons c rest ih =>
    intro a cls b h
    obtain ⟨hs, hne, hfree⟩ := h
    cases htok : tokenAt (c :: rest) with
    | some v => simp [findTokL, htok]
    | none =>
      cases a with
      | nil =>
        rw [List.nil_append] at hs
        rw [hs, tokenAt_complete cls b hne hfree] at htok
        exact absurd htok (by simp)
      | cons a0 arest =>
        have ha0 : a0 = c := by
          have := hs
          simp only [List.cons_append] at this
          injection this with h1 _
          exact h1.symm
        subst ha0
        have hs' := consTokSplit a0 rest arest cls b hs
        have hrec := ih arest cls b ⟨hs', hne, hfree⟩
        cases hr : findTokL rest with
        | some v => simp [findTokL, htok, hr]
        | none => rw [hr] at hrec; exact absurd hrec (by simp)

theorem findTokL_leftmost (s : List Char) :
    ∀ a cls b, findTokL s = some (a, cls, b) →
      ∀ a' cls' b', TokSplit s a' cls' b' → a.length ≤ a'.length := by
  induction s with
  | nil => intro a cls b h; exact absurd h (by simp [findTokL])
  | cons c rest ih =>
    intro a cls b h a' cls' b' hts
    simp only [findTokL] at h
    split at h
    · injection h with h'
      injection h' with h1 _
      subst h1
      simp
    · rename_i hnone
      split at h
      · rename_i a0 cls0 b0 hrest
        injection h with h'
        injection h' with h1 _
        subst h1
        obtain ⟨hs, hne', hfree'⟩ := hts
        cases a' with
        | nil =>
          rw [List.nil_append] at hs
          rw [hs, tokenAt_complete cls' b' hne' hfree'] at hnone
          exact absurd hnone (by simp)
        | cons a0' arest' =>
          have ha0 : a0' = c := by
            have := hs
            simp only [List.cons_append] at this
            injection this with h1 _
            exact h1.symm
          subst ha0
          have hs' := consTokSplit a0' rest arest' cls' b' hs
          have := ih a0 cls0 b0 hrest arest' cls' b' ⟨hs', hne', hfree'⟩
          simpa using Nat.succ_le_succ this
      · exact absurd h (by simp)

theorem startsWithL_iff (pat : List Char) :
    ∀ s, startsWithL pat s = true ↔ ∃ t, s = pat ++ t := by
  induction pat with
  | nil =>
    intro s
    simp [startsWithL]
  | cons p ps ih =>
    intro s
    cases s with
    | nil =>
      simp [startsWithL]
    | cons c cs =>
      simp only [startsWithL, Bool.and_eq_true, decide_eq_true_eq, ih, List.cons_append]
      constructor
      · rintro ⟨hpc, t, ht⟩
        exact ⟨t, by rw [hpc, ht]⟩
      · rintro ⟨t, ht⟩
        injection ht with h1 h2
        exact ⟨h1.symm, t, h2⟩

theorem splitFirstL_sound (pat s : List Char) :
    ∀ a b, splitFirstL pat s = some (a, b) → s = a ++ pat ++ b := by
  induction s with
  | nil =>
    intro a b h
    simp only [splitFirstL] at h
    split at h
    · rename_i hsw
      obtain ⟨t, ht⟩ := (startsWithL_iff pat []).1 hsw
      injection h with h'
      injection h' with h1 h2
      subst h1; subst h2
      cases pat with
      | nil => rfl
      | cons x xs => exact absurd ht (by simp)
    · exact absurd h (by simp)
  | cons c rest ih =>
    intro a b h
    simp only [splitFirstL] at h
    split at h
    · rename_i hsw
      obtain ⟨t, ht⟩ := (startsWithL_iff pat (c :: rest)).1 hsw
      injection h with h'
      injection h' with h1 h2
      subst h1
      rw [List.nil_append, ht]
      rw [ht, List.drop_left] at h2
      rw [h2]
    · split at h
      · rename_i a0 b0 hrest
        injection h with h'
        injection h' with h1 h2
        subst h1; subst h2
        rw [ih a0 b0 hrest]
        simp [List.append_assoc]
      · exact absurd h (by simp)

theorem splitFirstL_isSome (pat s : List Char) :
    ∀ u v, s = u ++ pat ++ v → (splitFirstL pat s).isSome = true := by
  induction s with
  | nil =>
    intro u v h
    have hu : u = [] ∧ pat = [] := by
      cases u with
      | nil =>
        cases pat with
        | nil => exact ⟨rfl, rfl⟩
        | cons x xs => exact absurd h (by simp)
      | cons x xs => exact absurd h (by simp)
    obtain ⟨rfl, rfl⟩ := hu
    simp [splitFirstL, startsWithL]
  | cons c rest ih =>
    intro u v h
    simp only [splitFirstL]
    split
    · simp
    · rename_i hsw
      cases u with
      | nil =>
        exact absurd ((startsWithL_iff pat (c :: rest)).2
          ⟨v, by rw [List.nil_append] at h; rw [h]⟩) (by simp [hsw])
      | cons u0 urest =>
        have hu0 : u0 = c := by
          simp only [List.cons_append] at h
          injection h with h1 _
          exact h1.symm
        subst hu0
        have hrest : rest = urest ++ pat ++ v := by
          simp only [List.cons_append] at h
          injection h with _ h2
        have := ih urest v hrest
        cases hr : splitFirstL pat rest with
        | some p => simp
        | none => rw [hr] at this; exact absurd this (by simp)

theorem splitFirstL_leftmost (pat s : List Char) :
    ∀ a b, splitFirstL pat s = some (a, b) →
      ∀ u v, s = u ++ pat ++ v → a.length ≤ u.length := by
  induction s with
  | nil =>
    intro a b h u v hs
    simp only [splitFirstL] at h
    split at h
    · injection h with h'
      injection h' with h1 _
      subst h1
      simp
    · exact absurd h (by simp)
  | cons c rest ih =>
    intro a b h u v hs
    simp only [splitFirstL] at h
    split at h
    · injection h with h'
      injection h' with h1 _
      subst h1
      simp
    · rename_i hsw
      split at h
      · rename_i a0 b0 hrest
        injection h with h'
        injection h' with h1 h2
        subst h1; subst h2
        cases u with
        | nil =>
          exact absurd ((startsWithL_iff pat (c :: rest)).2
            ⟨v, by rw [List.nil_append] at hs; rw [hs]⟩) (by simp [hsw])
        | cons u0 urest =>
          have hu0 : u0 = c := by
            simp only [List.cons_append] at hs
            injection hs with h1 _
            exact h1.symm
          subst hu0
          have hrest' : rest = urest ++ pat ++ v := by
            simp only [List.cons_append] at hs
            injection hs with _ h2
          have := ih a0 b0 hrest urest v hrest'
          simpa using Nat.succ_le_succ this
      · exact absurd h (by simp)

theorem toList_inj (s t : String) (h : s.toList = t.toList) : s = t := by
  cases s
  cases t
  exact congrArg String.mk h

theorem toList_nil_iff (s : String) : s.toList = [] ↔ s = "" := by
  constructor
  · intro h
    exact toList_inj s "" h
  · intro h
    rw [h]
    rfl

theorem tokSplitS_iff (s a cls b : String) :
    TokSplitS s a cls b ↔ TokSplit s.toList a.toList cls.toList b.toList := by
  unfold TokSplitS TokSplit
  have hhead : tokHead = "%%c:".toList := rfl
  have hclose : tokClose = "%%".toList := rfl
  constructor
  · rintro ⟨h1, h2, h3⟩
    refine ⟨?_, ?_, h3⟩
    · rw [h1, hhead, hclose]
      simp [toList_append]
    · intro habs
      exact h2 ((toList_nil_iff cls).1 habs)
  · rintro ⟨h1, h2, h3⟩
    refine ⟨?_, ?_, h3⟩
    · apply toList_inj
      rw [h1, hhead, hclose]
      simp [toList_append]
    · intro habs
      exact h2 (by rw [habs]; rfl)

theorem findTokS_elim (s a cls b : String) (hf : findTokS s = some (a, cls, b)) :
    ∃ la lc lb, findTokL s.toList = some (la, lc, lb) ∧
      a = String.mk la ∧ cls = String.mk lc ∧ b = String.mk lb := by
  unfold findTokS at hf
  cases hx : findTokL s.toList with
  | none =>
    rw [hx] at hf
    exact absurd hf (by simp)
  | some t3 =>
    rw [hx] at hf
    obtain ⟨la, lc, lb⟩ := t3
    injection hf with h'
    injection h' with h1 h2
    injection h2 with h2 h3
    exact ⟨la, lc, lb, rfl, h1.symm, h2.symm, h3.symm⟩

/-- C7: for every text or tail scan outside verbatim regions, at most the
first annotation token is consumed per call: the consumed piece is a genuine
token occurrence, it is the leftmost one, the new text is the surrounding
parts concatenated (later occurrences in the remainder are untouched), the
comma-separated class names are trimmed with empty entries dropped
(`splitClasses`), and the resulting classes are appended space-separated
after any existing classes, giving `existing ++ " " ++ new` (or just `new`
when there are no existing classes). -/
theorem c7_class_token_consumption
    (s a cls b tag : String) (ocls : Option String)
    (hpre : tag ≠ "pre") (hcode : tag ≠ "code")
    (hf : findTokS s = some (a, cls, b)) (hcl : splitClasses cls ≠ []) :
    TokSplitS s a cls b ∧
    (∀ a' cls' b' : String, TokSplitS s a' cls' b' → a.length ≤ a'.length) ∧
    process_text s tag ocls =
      (a ++ b,
        some (if ocls.getD "" = "" then joinSp (splitClasses cls)
              else ocls.getD "" ++ " " ++ joinSp (splitClasses cls))) := by
  obtain ⟨la, lc, lb, hx, rfl, rfl, rfl⟩ := findTokS_elim s _ _ _ hf
  have hsound := findTokL_sound s.toList la lc lb hx
  have hcond : ¬(tag = "pre" ∨ tag = "code") := by
    rintro (h | h)
    · exact hpre h
    · exact hcode h
  refine ⟨?_, ?_, ?_⟩
  · exact (tokSplitS_iff s (String.mk la) (String.mk lc) (String.mk lb)).2 hsound
  · intro a' cls' b' h'
    have hl := (tokSplitS_iff s a' cls' b').1 h'
    exact findTokL_leftmost s.toList la lc lb hx a'.toList cls'.toList b'.toList hl
  · simp only [process_text, hcond, if_false, hf]
    rw [if_neg hcl]
    cases ocls with
    | none => simp
    | some ex =>
      by_cases hex : ex = ""
      · simp [hex]
      · simp [hex]

/-- Witness for C7 at the spec's own example: the token `%%c:big, bold%%` in
`Hello %%c:big, bold%%world` is consumed and the classes `big bold` are
installed. -/
theorem c7_witness :
    process_text "Hello %%c:big, bold%%world" "p" (some "old") =
      ("Hello world", some "old big bold") := by
  have h := c7_class_token_consumption "Hello %%c:big, bold%%world"
    "Hello " "big, bold" "world" "p" (some "old")
    (by decide) (by decide) (by decide) (by decide)
  rw [h.2.2]
  decide

/-- C9 counterexample: the input `%%c:x%%c:a%b%%` contains the malformed
token `%%c:a%b%%` (a `%` inside the class list) as a substring, yet the
extractor does apply classes to the owning element — the pattern matches the
well-formed span `%%c:x%%` overlapping it, installing class `x` — so the
claim that for every such string no classes are applied is false. -/
theorem c9_counterexample :
    hasSub "%%c:x%%c:a%b%%" "%%c:a%b%%" = true ∧
    process_text "%%c:x%%c:a%b%%" "p" none = ("c:a%b%%", some "x") := by
  decide

/-- C9 (amended): a token whose class list contains `%` is never itself
recognized: a match returned by the pattern `%%c:([^%]+)%%` always has a
`%`-free class group, and a string in which the pattern finds no match at
all is left verbatim with no classes applied to any element. -/
theorem c9_no_pct_token_recognized :
    (∀ s a cls b : String, findTokS s = some (a, cls, b) → ∀ c ∈ cls.toList, c ≠ '%') ∧
    (∀ (s tag : String) (ocls : Option String),
      findTokS s = none → process_text s tag ocls = (s, ocls)) := by
  constructor
  · intro s a cls b hf c hc
    obtain ⟨la, lc, lb, hx, _, rfl, _⟩ := findTokS_elim s a cls b hf
    exact (findTokL_sound s.toList la lc lb hx).2.2 c hc
  · intro s tag ocls hn
    by_cases hcond : tag = "pre" ∨ tag = "code"
    · simp only [process_text, hcond, if_true]
    · simp only [process_text, hcond, if_false, hn]

/-- Witness for C9 (amended): `x%%c:a%b%%y` holds only the malformed token;
no match is found and the scan is the identity. -/
theorem c9_witness :
    findTokS "x%%c:a%b%%y" = none ∧
    process_text "x%%c:a%b%%y" "p" (some "k") = ("x%%c:a%b%%y", some "k") :=
  ⟨by decide, c9_no_pct_token_recognized.2 "x%%c:a%b%%y" "p" (some "k") (by decide)⟩

/-- C3 counterexample: with an empty card list, splicing the placeholder out
of `<p>Start%%card%%End</p>` does not leave the paragraph text as
`StartEnd`.  The source (`main.py` lines 362, 390–391) keeps only the part
before the token as the text and writes the part after it over the node's
own tail, so `End` ends up outside the element (clobbering the previous
tail `OLD`). -/
theorem c3_counterexample :
    injectCards .nil
        (.mk "body" [] none
          (.cons (.mk "p" [] (some "Start%%card%%End") .nil (some "OLD")) .nil) none) =
      some (.mk "body" [] none
        (.cons (.mk "p" [] (some "Start") .nil (some "End")) .nil) none) ∧
    injectCards .nil
        (.mk "body" [] none
          (.cons (.mk "p" [] (some "Start%%card%%End") .nil (some "OLD")) .nil) none) ≠
      some (.mk "body" [] none
        (.cons (.mk "p" [] (some "StartEnd") .nil (some "OLD")) .nil) none) := by
  decide

/-- C3 (amended): when the card list is empty and the placeholder occurs in
a node's text, no elements are inserted; the node's text becomes the part
before the token (or `None` when that part is empty), and the part after
the token, when non-empty, is written over the node's own tail (replacing
any existing tail) rather than being concatenated back into the text. -/
theorem c3_zero_cards_text_splice
    (tag : String) (attrs : List (String × String)) (kids : ElemList)
    (tail : Option String) (t before after : String)
    (ht : splitFirstS "%%card%%" t = some (before, after)) :
    t = before ++ "%%card%%" ++ after ∧
    spliceTextCase .nil (.mk tag attrs (some t) kids tail) =
      .mk tag attrs (if before = "" then none else some before) kids
        (if after = "" then tail else some after) := by
  have hsplit : splitFirstL "%%card%%".toList t.toList =
      some (before.toList, after.toList) := by
    unfold splitFirstS at ht
    cases hx : splitFirstL "%%card%%".toList t.toList with
    | none => rw [hx] at ht; exact absurd ht (by simp)
    | some p =>
      rw [hx] at ht
      obtain ⟨u, v⟩ := p
      injection ht with h'
      injection h' with h1 h2
      rw [← h1, ← h2]
      rfl
  constructor
  · apply toList_inj
    rw [splitFirstL_sound "%%card%%".toList t.toList before.toList after.toList hsplit]
    simp [toList_append]
  · simp only [spliceTextCase, ht]
    by_cases hafter : after = ""
    · simp [hafter]
    · simp [hafter]

/-- Witness for C3 (amended) at `<p>Start%%card%%End</p>` with a
pre-existing tail `OLD`. -/
theorem c3_witness :
    splitFirstS "%%card%%" "Start%%card%%End" = some ("Start", "End") ∧
    ("Start%%card%%End" = "Start" ++ "%%card%%" ++ "End" ∧
      spliceTextCase .nil (.mk "p" [] (some "Start%%card%%End") .nil (some "OLD")) =
        .mk "p" [] (if "Start" = "" then none else some "Start") .nil
          (if "End" = "" then some "OLD" else some "End")) :=
  ⟨by decide,
    c3_zero_cards_text_splice "p" [] .nil (some "OLD") "Start%%card%%End" "Start" "End"
      (by decide)⟩

theorem purge_sf_L : ∀ cs : ElemList, staleFreeL (purgeL cs) = true
  | .nil => by simp [purgeL, staleFreeL]
  | .cons (.mk t a x kids tl) rest => by
    by_cases h : isStaleCard (.mk t a x kids tl) = true
    · simpa [purgeL, h] using purge_sf_L rest
    · have hb : isStaleCard (.mk t a x kids tl) = false := by
        simpa using h
      have hb2 : isStaleCard (.mk t a x (purgeL kids) tl) = false := by
        simpa [isStaleCard, Elem.tag, Elem.attrs] using hb
      simp [purgeL, hb, purgeE, staleFreeL, Elem.children, hb2,
        purge_sf_L kids, purge_sf_L rest]

theorem purge_id_L : ∀ cs : ElemList, staleFreeL cs = true → purgeL cs = cs
  | .nil => by simp [purgeL]
  | .cons (.mk t a x kids tl) rest => by
    intro h
    simp only [staleFreeL, Bool.and_eq_true] at h
    obtain ⟨⟨hst, hkids⟩, hrest⟩ := h
    have hst' : isStaleCard (.mk t a x kids tl) = false := by
      cases hs : isStaleCard (.mk t a x kids tl) with
      | true => rw [hs] at hst; exact absurd hst (by simp)
      | false => rfl
    simp [purgeL, hst', purgeE, purge_id_L kids hkids, purge_id_L rest hrest]

/-- C1 counterexample: the purge XPath is `//div[contains(@class, "card")]`,
so a `span` whose class is exactly `card` survives the purge (the claim says
every element of any tag with the token `card` is removed), while a `div`
whose class is `cardigan` — which contains `card` only as a substring, not
as a whitespace-separated token — is removed (the claim says only token
matches are removed). -/
theorem c1_counterexample :
    purgeE (.mk "body" [] none
        (.cons (.mk "span" [("class", "card")] (some "s") .nil none)
        (.cons (.mk "div" [("class", "cardigan")] (some "z") .nil none) .nil)) none) =
      .mk "body" [] none
        (.cons (.mk "span" [("class", "card")] (some "s") .nil none) .nil) none := by
  decide

/-- C1 (amended): the purge step removes, at any nesting depth, exactly the
`div` elements whose `class` attribute contains `card` as a substring: no
such `div` remains anywhere in the purged forest, and a forest containing no
such `div` is left entirely unchanged. -/
theorem c1_stale_card_purge :
    (∀ cs : ElemList, staleFreeL (purgeL cs) = true) ∧
    (∀ cs : ElemList, staleFreeL cs = true → purgeL cs = cs) :=
  ⟨purge_sf_L, purge_id_L⟩

/-- Witness for C1 (amended): a forest with no stale card is unchanged. -/
theorem c1_witness :
    staleFreeL (.cons (.mk "p" [("class", "note")] (some "x") .nil none) .nil) = true ∧
    purgeL (.cons (.mk "p" [("class", "note")] (some "x") .nil none) .nil) =
      .cons (.mk "p" [("class", "note")] (some "x") .nil none) .nil :=
  ⟨by decide,
    c1_stale_card_purge.2 (.cons (.mk "p" [("class", "note")] (some "x") .nil none) .nil)
      (by decide)⟩

/-- C6: the formatter's degradation chain.  `pretty_print_html` is a total
function (modelled exceptions never escape it); whenever the primary
full-document path raises, the result is obtained by fragment-mode parsing
of the original raw input (not of the doctype-stripped remainder), and
whenever that fallback itself raises as well, the raw input is returned
unmodified. -/
theorem c6_format_never_raises (o : HtmlOracle) (raw e1 : String)
    (h1 : primaryPath o (splitDoctype raw).2.2 = .error e1) :
    (∀ s, fallbackPath o raw = .ok s → pretty_print_html o raw = s) ∧
    (∀ e2, fallbackPath o raw = .error e2 → pretty_print_html o raw = raw) := by
  constructor
  · intro s hs
    simp [pretty_print_html, h1, hs]
  · intro e2 h2
    simp [pretty_print_html, h1, h2]

/-- Witness for C6: with both parse paths failing, the raw input is
returned unchanged. -/
theorem c6_witness : pretty_print_html failOracle "<p>x</p" = "<p>x</p" :=
  (c6_format_never_raises failOracle "<p>x</p" "parse" rfl).2 "frag" rfl

theorem Elem.tail_withTail (e : Elem) (x : Option String) : (e.withTail x).tail = x := by
  cases e
  rfl

theorem pm_preserves_tail (s : Bool) (e : Elem) : (process_markup s e).tail = e.tail := by
  cases e
  simp [process_markup, Elem.tail]

theorem notClassAttr_class (v : String) : notClassAttr ("class", v) = false := rfl

theorem filter_setAttr (attrs : List (String × String)) (v : String) :
    (setAttr attrs "class" v).filter notClassAttr = attrs.filter notClassAttr := by
  induction attrs with
  | nil => simp [setAttr, notClassAttr_class]
  | cons kv rest ih =>
    obtain ⟨k, w⟩ := kv
    by_cases hk : k = "class"
    · subst hk
      simp [setAttr, List.filter_cons, notClassAttr_class]
    · simp [setAttr, hk, List.filter_cons, ih]

theorem filter_updateClass (attrs : List (String × String)) (cls0 cls2 : Option String) :
    (updateClass attrs cls0 cls2).filter notClassAttr = attrs.filter notClassAttr := by
  unfold updateClass
  split
  · rfl
  · split
    · exact filter_setAttr attrs _
    · rfl

theorem skelE_withTail (e : Elem) (x : Option String) : skelE (e.withTail x) = skelE e := by
  cases e
  rfl

mutual
theorem skel_pm_E : ∀ (s : Bool) (e : Elem), skelE (process_markup s e) = skelE e
  | s, .mk tag attrs text kids tl => by
    simp only [process_markup, skelE]
    rw [filter_updateClass, skel_pm_L]
theorem skel_pm_L : ∀ (s : Bool) (ot : String) (oc : Option String) (cs : ElemList),
    skelL (pmChildren s ot oc cs).1 = skelL cs
  | s, ot, oc, .nil => rfl
  | s, ot, oc, .cons c rest => by
    simp only [pmChildren, skelL]
    rw [skelE_withTail, skel_pm_E, skel_pm_L]
end

/-- C10: the Markup Token Extractor mutates only text, tails and the
`class` attribute: the skeleton of the tree — every tag, the ordered
children structure (no element added, removed or reordered) and every
attribute entry other than `class`, in order — is unchanged by
`process_markup`, for either initial skip flag. -/
theorem c10_extractor_frame (s : Bool) (e : Elem) :
    skelE (process_markup s e) = skelE e :=
  skel_pm_E s e

theorem process_text_fst (t tag : String) (oc : Option String) :
    (process_text t tag oc).1 = processTextStr t tag := by
  unfold processTextStr process_text
  split
  · rfl
  · cases findTokS t with
    | none => rfl
    | some triple =>
      obtain ⟨a, cls, b⟩ := triple
      simp only []
      split
      · rfl
      · cases oc with
        | none => rfl
        | some ex =>
          by_cases hex : ex = ""
          · simp [hex]
          · simp [hex]

theorem scanOpt_fst (x : Option String) (tag : String) (oc : Option String) :
    (scanOpt x tag oc).1 = scanStr x tag := by
  unfold scanStr scanOpt
  cases x with
  | none => rfl
  | some t =>
    by_cases h0 : t = ""
    · simp [h0]
    · by_cases hdb : hasSub t "%%" = true
      · simp [h0, hdb, process_text_fst]
      · simp [h0, hdb]

theorem textsE_withTail (e : Elem) (x : Option String) :
    textsE (e.withTail x) = textsE e := by
  cases e
  rfl

theorem tailsInE_withTail (e : Elem) (x : Option String) :
    tailsInE (e.withTail x) = tailsInE e := by
  cases e
  rfl

theorem tailsInL_cons (c : Elem) (rest : ElemList) :
    tailsInL (.cons c rest) = c.tail :: (tailsInE c ++ tailsInL rest) := by
  cases c
  rfl

mutual
theorem texts_pm_E : ∀ e : Elem, textsE (process_markup true e) = textsE e
  | .mk tag attrs text kids tl => by
    simp only [process_markup, textsE, if_true, Bool.true_or]
    rw [texts_pm_L]
theorem texts_pm_L : ∀ (ot : String) (oc : Option String) (cs : ElemList),
    textsL (pmChildren true ot oc cs).1 = textsL cs
  | ot, oc, .nil => rfl
  | ot, oc, .cons c rest => by
    simp only [pmChildren, textsL]
    rw [textsE_withTail, texts_pm_E, texts_pm_L]
end

mutual
theorem tails_pm_E : ∀ (s1 s2 : Bool) (e : Elem),
    tailsInE (process_markup s1 e) = tailsInE (process_markup s2 e)
  | s1, s2, .mk tag attrs text kids tl => by
    simp only [process_markup, tailsInE]
    exact tails_pm_L _ _ tag _ _ kids
theorem tails_pm_L : ∀ (s1 s2 : Bool) (ot : String) (oc1 oc2 : Option String)
    (cs : ElemList),
    tailsInL (pmChildren s1 ot oc1 cs).1 = tailsInL (pmChildren s2 ot oc2 cs).1
  | s1, s2, ot, oc1, oc2, .nil => rfl
  | s1, s2, ot, oc1, oc2, .cons c rest => by
    simp only [pmChildren]
    rw [tailsInL_cons, tailsInL_cons, Elem.tail_withTail, Elem.tail_withTail,
      pm_preserves_tail, pm_preserves_tail, scanOpt_fst, scanOpt_fst,
      tailsInE_withTail, tailsInE_withTail]
    rw [tails_pm_E s1 s2 c, tails_pm_L s1 s2 ot _ _ rest]
end

/-- C5: the extractor's text/tail asymmetry.  (i) Under an inherited skip
flag no text slot anywhere in the subtree is rewritten; (ii) the tail slots
are rewritten identically for every value of the inherited skip flag (and of
the owner's class state) — tail scanning depends only on the owning parent's
tag; (iii) the argument element's own tail — the root's tail, whose
`getparent()` is `None` — is never processed; (iv) positively: a child's
tail that passes the `%%` guard is rewritten by `process_text` under its
parent's tag even when the inherited skip flag is set. -/
theorem c5_tail_scan_asymmetry :
    (∀ e : Elem, textsE (process_markup true e) = textsE e) ∧
    (∀ (s1 s2 : Bool) (e : Elem),
      tailsInE (process_markup s1 e) = tailsInE (process_markup s2 e)) ∧
    (∀ (s : Bool) (e : Elem), (process_markup s e).tail = e.tail) ∧
    (∀ (s : Bool) (ot : String) (oc : Option String) (c : Elem) (rest : ElemList)
        (t : String),
      c.tail = some t → t ≠ "" → hasSub t "%%" = true →
      ∃ c' rest', (pmChildren s ot oc (.cons c rest)).1 = .cons c' rest' ∧
        c'.tail = some (processTextStr t ot)) := by
  refine ⟨texts_pm_E, tails_pm_E, pm_preserves_tail, ?_⟩
  intro s ot oc c rest t ht hne hdb
  refine ⟨_, _, rfl, ?_⟩
  rw [Elem.tail_withTail, pm_preserves_tail, ht, scanOpt_fst]
  unfold scanStr scanOpt
  simp [hne, hdb, process_text_fst]

/-- Witness for C5: a tail holding a token, owned by a non-verbatim parent,
is scanned even under an inherited skip flag. -/
theorem c5_witness :
    (Elem.mk "pre" [] none .nil (some "t %%c:b%% u")).tail = some "t %%c:b%% u" ∧
    ∃ c' rest',
      (pmChildren true "body" none
          (.cons (.mk "pre" [] none .nil (some "t %%c:b%% u")) .nil)).1 =
        .cons c' rest' ∧
      c'.tail = some (processTextStr "t %%c:b%% u" "body") :=
  ⟨rfl,
    c5_tail_scan_asymmetry.2.2.2 true "body" none
      (.mk "pre" [] none .nil (some "t %%c:b%% u")) .nil "t %%c:b%% u"
      rfl (by decide) (by decide)⟩

/-- C2 counterexample: in
`<body><div><p>%%card%%x</p></div>%%card%%y</body>` the placeholder inside
the paragraph's text comes first in the claimed document order (a node's
text, then its child subtrees, then its tail), but the code checks each
element's tail before descending into its children (`main.py` lines
358–430: one loop body per `iter()` element handles both text and tail), so
the `div`'s tail is spliced and the paragraph's text still holds its
placeholder untouched. -/
theorem c2_counterexample :
    injectCards
        (.cons (.mk "div" [("class", "card")] none
          (.cons (.mk "a" [("href", "a.html")] (some "A") .nil none) .nil) none) .nil)
        (.mk "body" [] none
          (.cons (.mk "div" [] none
            (.cons (.mk "p" [] (some "%%card%%x") .nil none) .nil) (some "%%card%%y"))
            .nil) none) =
      some (.mk "body" [] none
        (.cons (.mk "div" [] none
          (.cons (.mk "p" [] (some "%%card%%x") .nil none) .nil) none)
        (.cons (.mk "div" [("class", "card")] none
          (.cons (.mk "a" [("href", "a.html")] (some "A") .nil none) .nil) (some "y"))
          .nil)) none) := by
  decide

theorem spliceL_none_iff : ∀ (cards : ElemList) (cs : ElemList),
    spliceL cards cs = none ↔ tokFreeL cs = true
  | cards, .nil => by simp [spliceL, tokFreeL]
  | cards, .cons (.mk t a x kids tl) rest => by
    by_cases hx : hasTok x = true
    · simp [spliceL, hx, tokFreeL]
    · by_cases htl : hasTok tl = true
      · simp [spliceL, hx, htl, tokFreeL]
      · have hxf : hasTok x = false := by simpa using hx
        have htlf : hasTok tl = false := by simpa using htl
        have hkids := spliceL_none_iff cards kids
        have hrest := spliceL_none_iff cards rest
        simp only [spliceL, hxf, htlf, Bool.false_eq_true, if_false, tokFreeL,
          Bool.not_false, Bool.true_and, Bool.and_eq_true]
        cases hk : spliceL cards kids with
        | some kids2 =>
          simp only [hk]
          constructor
          · intro habs
            exact absurd habs (by simp)
          · rintro ⟨hkf, _⟩
            rw [hk] at hkids
            exact absurd (hkids.2 hkf) (by simp)
        | none =>
          rw [hk] at hkids
          cases hr : spliceL cards rest with
          | some rest2 =>
            simp only [hk, hr]
            constructor
            · intro habs
              exact absurd habs (by simp)
            · rintro ⟨_, hrf⟩
              rw [hr] at hrest
              exact absurd (hrest.2 hrf) (by simp)
          | none =>
            rw [hr] at hrest
            simp only [hk, hr]
            simp [hkids.1 rfl, hrest.1 rfl]

/-- C2 (amended): the injector resolves the first placeholder occurrence in
the order: an element's own text, then that element's tail, then its child
subtrees, then its later siblings (the loop body of the `iter()` walk checks
an element's tail before any of its descendants are visited).  The search
fails exactly on placeholder-free forests; whichever case splices, the
traversal stops: the later siblings are returned untouched, and in the tail
case the element's own text and entire child subtree are untouched as well,
with the cards inserted as its following siblings. -/
theorem c2_injection_order :
    (∀ (cards cs : ElemList), spliceL cards cs = none ↔ tokFreeL cs = true) ∧
    (∀ (cards : ElemList) (c : Elem) (rest : ElemList),
      hasTok c.text = true →
      spliceL cards (.cons c rest) = some (.cons (spliceTextCase cards c) rest)) ∧
    (∀ (cards : ElemList) (c : Elem) (rest : ElemList),
      hasTok c.text = false → hasTok c.tail = true →
      spliceL cards (.cons c rest) = some (spliceTailCase cards c rest) ∧
      ∃ c' cards', spliceTailCase cards c rest = .cons c' (ElemList.append cards' rest) ∧
        c'.text = c.text ∧ c'.children = c.children) ∧
    (∀ (cards : ElemList) (c : Elem) (rest kids' : ElemList),
      hasTok c.text = false → hasTok c.tail = false →
      spliceL cards c.children = some kids' →
      spliceL cards (.cons c rest) = some (.cons (c.withChildren kids') rest)) := by
  refine ⟨spliceL_none_iff, ?_, ?_, ?_⟩
  · intro cards c rest hx
    cases c with
    | mk t a x kids tl =>
      simp only [Elem.text] at hx
      simp [spliceL, hx]
  · intro cards c rest hx htl
    cases c with
    | mk t a x kids tl =>
      simp only [Elem.text] at hx
      simp only [Elem.tail] at htl
      refine ⟨by simp [spliceL, hx, htl], ?_⟩
      cases tl with
      | none => exact absurd htl (by simp [hasTok])
      | some t0 =>
        simp only [hasTok, Bool.and_eq_true] at htl
        obtain ⟨-, hsub⟩ := htl
        unfold hasSub at hsub
        cases hsp : splitFirstL "%%card%%".toList t0.toList with
        | none => rw [hsp] at hsub; exact absurd hsub (by simp)
        | some p =>
          obtain ⟨u, v⟩ := p
          simp only [spliceTailCase, Elem.tail, splitFirstS, hsp]
          exact ⟨_, _, rfl, rfl, rfl⟩
  · intro cards c rest kids' hx htl hk
    cases c with
    | mk t a x kids tl =>
      simp only [Elem.text] at hx
      simp only [Elem.tail] at htl
      simp only [Elem.children] at hk
      simp [spliceL, hx, htl, hk, Elem.withChildren]

/-- Witness for C2 (amended), exercising the tail case with one card: the
spliced element keeps its text and children, and the card becomes its
following sibling. -/
theorem c2_witness :
    hasTok (Elem.mk "div" [] none (.cons (.mk "p" [] (some "q") .nil none) .nil)
        (some "%%card%%y")).text = false ∧
    spliceL (.cons (.mk "div" [("class", "card")] none .nil none) .nil)
        (.cons (.mk "div" [] none (.cons (.mk "p" [] (some "q") .nil none) .nil)
          (some "%%card%%y")) .nil) =
      some (spliceTailCase (.cons (.mk "div" [("class", "card")] none .nil none) .nil)
        (.mk "div" [] none (.cons (.mk "p" [] (some "q") .nil none) .nil)
          (some "%%card%%y")) .nil) :=
  ⟨by decide,
    (c2_injection_order.2.2.1
      (.cons (.mk "div" [("class", "card")] none .nil none) .nil)
      (.mk "div" [] none (.cons (.mk "p" [] (some "q") .nil none) .nil)
        (some "%%card%%y")) .nil (by decide) (by decide)).1⟩

theorem stripToksAux_none (s : List Char) (h : findTokL s = none) :
    ∀ n, stripToksAux n s = s
  | 0 => rfl
  | n + 1 => by simp [stripToksAux, h]

theorem tokSplit_length (s a cls b : List Char) (h : TokSplit s a cls b) :
    a.length + b.length + 7 ≤ s.length := by
  obtain ⟨hs, hne, _⟩ := h
  have hc : 1 ≤ cls.length := List.length_pos.2 hne
  subst hs
  simp [tokHead, tokClose, List.length_append]
  omega

theorem stripToksAux_fuel : ∀ (n : Nat) (s : List Char), s.length ≤ n →
    stripToksAux n s = stripToksL s := by
  intro n
  induction n using Nat.strong_induction_on with
  | _ n ih =>
    intro s hs
    cases n with
    | zero =>
      have hnil : s = [] := List.eq_nil_of_length_eq_zero (Nat.le_zero.1 hs)
      subst hnil
      rfl
    | succ m =>
      cases hf : findTokL s with
      | none =>
        rw [stripToksAux_none s hf]
        unfold stripToksL
        rw [stripToksAux_none s hf]
      | some triple =>
        obtain ⟨a, cls, b⟩ := triple
        have hlen := tokSplit_length s a cls b (findTokL_sound s a cls b hf)
        have hL : stripToksAux (m + 1) s = stripToksAux m (a ++ b) := by
          simp [stripToksAux, hf]
        cases s with
        | nil => exact absurd hf (by simp [findTokL])
        | cons c0 s0 =>
          have hlen0 : (a ++ b).length ≤ s0.length := by
            simp only [List.length_append] at hlen ⊢
            simp only [List.length_cons] at hlen
            omega
          have hm : (a ++ b).length ≤ m := by
            simp only [List.length_cons] at hs
            omega
          have hR : stripToksL (c0 :: s0) = stripToksAux s0.length (a ++ b) := by
            unfold stripToksL
            simp [List.length_cons, stripToksAux, hf]
          rw [hL, hR, ih m (Nat.lt_succ_self m) (a ++ b) hm,
            ih s0.length (by simp only [List.length_cons] at hs; omega) (a ++ b) hlen0]

theorem stripToksL_eat (s a cls b : List Char) (hf : findTokL s = some (a, cls, b)) :
    stripToksL s = stripToksL (a ++ b) := by
  have hlen := tokSplit_length s a cls b (findTokL_sound s a cls b hf)
  cases s with
  | nil => exact absurd hf (by simp [findTokL])
  | cons c0 s0 =>
    have hstep : stripToksL (c0 :: s0) = stripToksAux s0.length (a ++ b) := by
      unfold stripToksL
      simp [List.length_cons, stripToksAux, hf]
    rw [hstep]
    apply stripToksAux_fuel
    simp only [List.length_append] at hlen ⊢
    simp only [List.length_cons] at hlen
    omega

theorem ws_no_tok (s : List Char) (h : ∀ c ∈ s, isWsChar c = true) :
    findTokL s = none := by
  cases hf : findTokL s with
  | none => rfl
  | some triple =>
    obtain ⟨a, cls, b⟩ := triple
    obtain ⟨hs, _, _⟩ := findTokL_sound s a cls b hf
    have hmem : ('%' : Char) ∈ s := by
      rw [hs]
      simp [tokHead]
    exact absurd (h '%' hmem) (by decide)

theorem semStr_blank (x : Option String) (h : blankOpt x = true) : semStr x = [] := by
  cases x with
  | none => rfl
  | some s =>
    simp only [blankOpt, isBlankStr] at h
    have hall : ∀ c ∈ s.toList, isWsChar c = true := fun c hc =>
      List.all_eq_true.1 h c hc
    simp only [semStr, stripToksL, stripToksAux_none _ (ws_no_tok _ hall)]
    rw [List.filter_eq_nil_iff]
    intro c hc
    simp [hall c hc]

theorem padSpaces_ws (k : Nat) : ∀ c ∈ (padSpaces k).toList, isWsChar c = true := by
  induction k with
  | zero =>
    intro c hc
    simp [padSpaces] at hc
  | succ n ih =>
    intro c hc
    simp only [padSpaces, toList_append, List.mem_append] at hc
    rcases hc with hc | hc
    · exact ih c hc
    · have h4 : ("    " : String).toList = [' ', ' ', ' ', ' '] := rfl
      rw [h4] at hc
      simp only [List.mem_cons, List.mem_singleton, List.not_mem_nil, or_false] at hc
      have : c = ' ' := by
        rcases hc with h | h | h | h <;> exact h
      rw [this]
      rfl

theorem padStr_blank (k : Nat) : blankOpt (some (padStr k)) = true := by
  simp only [blankOpt, isBlankStr, padStr, toList_append, List.all_append,
    Bool.and_eq_true]
  constructor
  · rfl
  · rw [List.all_eq_true]
    exact padSpaces_ws k

theorem reblank_sem (x : Option String) (k : Nat) : semStr (reblank x k) = semStr x := by
  unfold reblank
  split
  · rename_i hb
    rw [semStr_blank _ hb, semStr_blank _ (padStr_blank k)]
  · rfl

theorem semE_withTail (e : Elem) (x : Option String) : semE (e.withTail x) = semE e := by
  cases e
  rfl

theorem semE_parts (tag : String) (a : List (String × String)) (x : Option String)
    (kids : ElemList) (tl : Option String) :
    semE (.mk tag a x kids tl) = semStr x ++ semL kids := rfl

theorem semL_cons (c : Elem) (rest : ElemList) :
    semL (.cons c rest) = semE c ++ (semStr c.tail ++ semL rest) := by
  cases c
  simp [semL, semE, Elem.tail, List.append_assoc]

mutual
theorem sem_ind_E : ∀ (lvl : Nat) (e : Elem), semE (indentE lvl e) = semE e
  | lvl, .mk tag a x kids tl => by
    cases kids with
    | nil => rfl
    | cons c rest =>
      simp only [indentE, semE_parts, reblank_sem]
      rw [sem_ind_L]
theorem sem_ind_L : ∀ (lvl : Nat) (cs : ElemList), semL (indentKids lvl cs) = semL cs
  | lvl, .nil => rfl
  | lvl, .cons c .nil => by
    simp only [indentKids]
    rw [semL_cons, semL_cons, semE_withTail, Elem.tail_withTail, sem_ind_E,
      reblank_sem]
  | lvl, .cons c (.cons d rest) => by
    simp only [indentKids]
    rw [semL_cons, semL_cons, semE_withTail, Elem.tail_withTail, sem_ind_E,
      reblank_sem, sem_ind_L lvl (.cons d rest)]
end

theorem fixAllL_cons (c : Elem) (rest : ElemList) :
    fixAllL (.cons c rest) = .cons (fixAllE c) (fixAllL rest) := rfl

theorem fixAllE_tag (e : Elem) : (fixAllE e).tag = e.tag := by
  cases e with
  | mk tag a x kids tl =>
    simp only [fixAllE]
    cases fixAllL kids with
    | nil => rfl
    | cons c rest =>
      simp only []
      by_cases hq : tag = "pre" ∧ c.tag = "code"
      · rw [if_pos hq]
        rfl
      · rw [if_neg hq]
        rfl

theorem fixAllE_tail (e : Elem) : (fixAllE e).tail = e.tail := by
  cases e with
  | mk tag a x kids tl =>
    simp only [fixAllE]
    cases fixAllL kids with
    | nil => rfl
    | cons c rest =>
      simp only []
      by_cases hq : tag = "pre" ∧ c.tag = "code"
      · rw [if_pos hq]
        rfl
      · rw [if_neg hq]
        rfl

mutual
theorem sem_fix_E : ∀ e : Elem, okPreE e = true → semE (fixAllE e) = semE e
  | .mk tag a x kids tl, h => by
    cases kids with
    | nil => rfl
    | cons c0 rest0 =>
      simp only [okPreE, okPreL, Bool.and_eq_true] at h
      obtain ⟨hqual, hc0Ok, hrest0Ok⟩ := h
      simp only [fixAllE, fixAllL_cons]
      by_cases hq : tag = "pre" ∧ (fixAllE c0).tag = "code"
      · have hq0 : tag = "pre" ∧ c0.tag = "code" := by
          rw [← fixAllE_tag c0]
          exact hq
        rw [if_pos hq]
        rw [if_pos hq0] at hqual
        simp only [Bool.and_eq_true, List.isEmpty_iff] at hqual
        obtain ⟨hx0, htl0⟩ := hqual
        rw [semE_parts, semE_parts, semL_cons, semL_cons, semE_withTail,
          Elem.tail_withTail, sem_fix_E c0 hc0Ok, sem_fix_L rest0 hrest0Ok,
          hx0, htl0]
        have hnl : semStr (some "\n") = [] := by decide
        rw [hnl]
        rfl
      · rw [if_neg hq]
        rw [semE_parts, semE_parts, semL_cons, semL_cons, fixAllE_tail,
          sem_fix_E c0 hc0Ok, sem_fix_L rest0 hrest0Ok]
theorem sem_fix_L : ∀ cs : ElemList, okPreL cs = true → semL (fixAllL cs) = semL cs
  | .nil, _ => rfl
  | .cons c rest, h => by
    simp only [okPreL, Bool.and_eq_true] at h
    obtain ⟨hc, hrest⟩ := h
    rw [fixAllL_cons, semL_cons, semL_cons, fixAllE_tail, sem_fix_E c hc,
      sem_fix_L rest hrest]
end

theorem semStr_processTextStr (t tag : String) :
    semStr (some (processTextStr t tag)) = semStr (some t) := by
  unfold processTextStr process_text
  split
  · rfl
  · cases hf : findTokS t with
    | none => rfl
    | some triple =>
      obtain ⟨a, cls, b⟩ := triple
      obtain ⟨la, lc, lb, hx, ha, hcls, hb⟩ := findTokS_elim t a cls b hf
      subst ha; subst hcls; subst hb
      have hout : semStr (some (String.mk la ++ String.mk lb)) = semStr (some t) := by
        simp only [semStr]
        have hl : (String.mk la ++ String.mk lb).toList = la ++ lb := rfl
        rw [hl, ← stripToksL_eat t.toList la lc lb hx]
      simp only []
      split
      · exact hout
      · exact hout

theorem semStr_scan (x : Option String) (tag : String) (oc : Option String) :
    semStr ((scanOpt x tag oc).1) = semStr x := by
  rw [scanOpt_fst]
  unfold scanStr scanOpt
  cases x with
  | none => rfl
  | some t =>
    by_cases h0 : t = ""
    · simp [h0]
    · by_cases hdb : hasSub t "%%" = true
      · simp only [h0, hdb, if_false, if_true]
        have := process_text_fst t tag none
        simp only [this]
        exact semStr_processTextStr t tag
      · simp [h0, hdb]

mutual
theorem sem_pm_E : ∀ (s : Bool) (e : Elem), semE (process_markup s e) = semE e
  | s, .mk tag a x kids tl => by
    simp only [process_markup, semE_parts]
    rw [sem_pm_L]
    congr 1
    cases s with
    | true => simp
    | false =>
      simp only [Bool.false_eq_true, if_false]
      exact semStr_scan x tag _
theorem sem_pm_L : ∀ (s : Bool) (ot : String) (oc : Option String) (cs : ElemList),
    semL (pmChildren s ot oc cs).1 = semL cs
  | s, ot, oc, .nil => rfl
  | s, ot, oc, .cons c rest => by
    simp only [pmChildren]
    rw [semL_cons, semL_cons, Elem.tail_withTail, semE_withTail, sem_pm_E,
      pm_preserves_tail, semStr_scan, sem_pm_L]
end

theorem Elem.tag_withTail (e : Elem) (z : Option String) : (e.withTail z).tag = e.tag := by
  cases e
  rfl

theorem okPreE_withTail (e : Elem) (z : Option String) :
    okPreE (e.withTail z) = okPreE e := by
  cases e
  rfl

theorem indentE_tag (lvl : Nat) (e : Elem) : (indentE lvl e).tag = e.tag := by
  cases e with
  | mk tag a x kids tl =>
    cases kids with
    | nil => rfl
    | cons c rest => rfl

theorem semE_decomp (e : Elem) : semE e = semStr e.text ++ semL e.children := by
  cases e
  rfl

mutual
theorem okPre_ind_E : ∀ (lvl : Nat) (e : Elem), okPreE e = true →
    okPreE (indentE lvl e) = true
  | lvl, .mk tag a x kids tl, h => by
    cases kids with
    | nil => exact h
    | cons c rest =>
      simp only [okPreE, okPreL, Bool.and_eq_true] at h
      obtain ⟨hqual, hcOk, hrestOk⟩ := h
      simp only [indentE]
      cases rest with
      | nil =>
        simp only [indentKids, okPreE, okPreL, Bool.and_eq_true]
        refine ⟨?_, ?_, trivial⟩
        · simp only [Elem.tag_withTail, indentE_tag, Elem.tail_withTail]
          by_cases hq : tag = "pre" ∧ c.tag = "code"
          · rw [if_pos hq]
            rw [if_pos hq] at hqual
            simp only [Bool.and_eq_true, List.isEmpty_iff] at hqual ⊢
            rw [reblank_sem, reblank_sem]
            exact hqual
          · rw [if_neg hq]
        · rw [okPreE_withTail]
          exact okPre_ind_E (lvl + 1) c hcOk
      | cons d rest2 =>
        simp only [indentKids, okPreE, okPreL, Bool.and_eq_true]
        refine ⟨?_, ?_, ?_⟩
        · simp only [Elem.tag_withTail, indentE_tag, Elem.tail_withTail]
          by_cases hq : tag = "pre" ∧ c.tag = "code"
          · rw [if_pos hq]
            rw [if_pos hq] at hqual
            simp only [Bool.and_eq_true, List.isEmpty_iff] at hqual ⊢
            rw [reblank_sem, reblank_sem]
            exact hqual
          · rw [if_neg hq]
        · rw [okPreE_withTail]
          exact okPre_ind_E (lvl + 1) c hcOk
        · have := okPre_ind_L lvl (.cons d rest2) (by
            simp only [okPreL, Bool.and_eq_true] at hrestOk ⊢
            exact hrestOk)
          simpa [okPreL] using this
theorem okPre_ind_L : ∀ (lvl : Nat) (cs : ElemList), okPreL cs = true →
    okPreL (indentKids lvl cs) = true
  | lvl, .nil, _ => rfl
  | lvl, .cons c .nil, h => by
    simp only [okPreL, Bool.and_eq_true] at h
    simp only [indentKids, okPreL, Bool.and_eq_true]
    exact ⟨by rw [okPreE_withTail]; exact okPre_ind_E (lvl + 1) c h.1, trivial⟩
  | lvl, .cons c (.cons d rest), h => by
    simp only [okPreL, Bool.and_eq_true] at h
    simp only [indentKids, okPreL, Bool.and_eq_true]
    refine ⟨by rw [okPreE_withTail]; exact okPre_ind_E (lvl + 1) c h.1, ?_⟩
    have := okPre_ind_L lvl (.cons d rest) (by
      simp only [okPreL, Bool.and_eq_true]
      exact h.2)
    simpa [okPreL] using this
end

/-- C4 counterexample: the formatter's own `<pre><code>` adjustment
(`main.py` line 88, `pre.text = None`) erases the non-whitespace leading
text `hello` of a `pre` element whose first child is `code`.  The input
contains no annotation or placeholder token at all, so the claim's only
allowed exception does not apply, yet the semantic content differs. -/
theorem c4_counterexample :
    noDblE preHelloDoc = true ∧
    semE preHelloDoc = ['h', 'e', 'l', 'l', 'o', 'x'] ∧
    semE (formatTree preHelloDoc) = ['x'] := by
  decide

/-- C4 (amended): the concatenation of all non-whitespace, non-token text
content (`semE`: every text/tail slot with annotation tokens deleted and
whitespace removed, in document order) is preserved by the formatting pass,
provided every `pre` element with a `code` first child has semantically
blank leading text and its `code` child a semantically blank tail — the two
slots that the `<pre><code>` same-line rule overwrites.  Consumed
annotation tokens are deliberately removed and do not count as content. -/
theorem c4_content_preservation (e : Elem) (h : okPreE e = true) :
    semE (formatTree e) = semE e := by
  unfold formatTree
  rw [sem_pm_E]
  have hok : okPreE (indentE 0 e) = true := okPre_ind_E 0 e h
  have hfix : semE (fixPreTop (indentE 0 e)) = semE (indentE 0 e) := by
    cases hE : indentE 0 e with
    | mk t a x kids tl =>
      rw [hE] at hok
      simp only [okPreE, Bool.and_eq_true] at hok
      simp only [fixPreTop, Elem.withChildren, Elem.children, semE_parts]
      rw [sem_fix_L kids hok.2]
  rw [hfix, sem_ind_E]

/-- Witness for C4 (amended). -/
theorem c4_witness :
    okPreE preBlankDoc = true ∧ semE (formatTree preBlankDoc) = semE preBlankDoc :=
  ⟨by decide, c4_content_preservation preBlankDoc (by decide)⟩

theorem Elem.withTail_self (e : Elem) : e.withTail e.tail = e := by
  cases e
  rfl

theorem Elem.withTail_withTail (e : Elem) (z1 z2 : Option String) :
    (e.withTail z1).withTail z2 = e.withTail z2 := by
  cases e
  rfl

theorem scanOpt_noDbl (x : Option String) (tag : String) (oc : Option String)
    (h : noDblStr x = true) : scanOpt x tag oc = (x, oc) := by
  cases x with
  | none => rfl
  | some t =>
    simp only [noDblStr, Bool.not_eq_true'] at h
    by_cases h0 : t = ""
    · simp [scanOpt, h0]
    · simp [scanOpt, h0, h]

mutual
theorem pm_id_E : ∀ (s : Bool) (e : Elem), noDblE e = true → process_markup s e = e
  | s, .mk tag a x kids tl, h => by
    simp only [noDblE, Bool.and_eq_true] at h
    obtain ⟨hx, hkids⟩ := h
    simp only [process_markup]
    have hr1 : (if s = true then (x, getAttr a "class")
        else scanOpt x tag (getAttr a "class")) = (x, getAttr a "class") := by
      cases s with
      | true => simp
      | false => simp [scanOpt_noDbl x tag _ hx]
    rw [hr1]
    rw [pm_id_L (s || tag = "pre" || tag = "code") tag (getAttr a "class") kids hkids]
    simp [updateClass]
theorem pm_id_L : ∀ (s : Bool) (ot : String) (oc : Option String) (cs : ElemList),
    noDblL cs = true → pmChildren s ot oc cs = (cs, oc)
  | s, ot, oc, .nil, _ => rfl
  | s, ot, oc, .cons (.mk t a x kids tl) rest, h => by
    simp only [noDblL, Bool.and_eq_true] at h
    obtain ⟨⟨⟨hx, htl⟩, hkids⟩, hrest⟩ := h
    simp only [pmChildren]
    rw [pm_id_E s (.mk t a x kids tl) (by simp [noDblE, hx, hkids])]
    rw [show (Elem.mk t a x kids tl).tail = tl from rfl, scanOpt_noDbl tl ot oc htl]
    rw [pm_id_L s ot oc rest hrest]
    simp [Elem.withTail]
end

theorem no_pct_no_dbl (s : String) (h : ∀ c ∈ s.toList, c ≠ '%') :
    hasSub s "%%" = false := by
  unfold hasSub
  cases hx : splitFirstL "%%".toList s.toList with
  | none => rfl
  | some p =>
    obtain ⟨u, v⟩ := p
    have hs := splitFirstL_sound "%%".toList s.toList u v hx
    have hmem : ('%' : Char) ∈ s.toList := by
      rw [hs]
      have : ('%' : Char) ∈ ("%%" : String).toList := by decide
      simp [List.mem_append, this]
    exact absurd rfl (h '%' hmem)

theorem noDbl_padStr (k : Nat) : noDblStr (some (padStr k)) = true := by
  simp only [noDblStr, Bool.not_eq_true']
  apply no_pct_no_dbl
  intro c hc
  have hws : isWsChar c = true := by
    simp only [padStr, toList_append, List.mem_append] at hc
    rcases hc with hc | hc
    · have : ("\n" : String).toList = ['\n'] := rfl
      rw [this] at hc
      simp only [List.mem_singleton] at hc
      rw [hc]
      rfl
    · exact padSpaces_ws k c hc
  intro habs
  rw [habs] at hws
  exact absurd hws (by decide)

theorem noDbl_reblank (x : Option String) (k : Nat) (h : noDblStr x = true) :
    noDblStr (reblank x k) = true := by
  unfold reblank
  split
  · exact noDbl_padStr k
  · exact h

mutual
theorem noDbl_ind_E : ∀ (lvl : Nat) (e : Elem), noDblE e = true →
    noDblE (indentE lvl e) = true
  | lvl, .mk tag a x kids tl, h => by
    cases kids with
    | nil => exact h
    | cons c rest =>
      simp only [noDblE, Bool.and_eq_true] at h
      simp only [indentE, noDblE, Bool.and_eq_true]
      exact ⟨noDbl_reblank x (lvl + 1) h.1, noDbl_ind_L lvl (.cons c rest) h.2⟩
theorem noDbl_ind_L : ∀ (lvl : Nat) (cs : ElemList), noDblL cs = true →
    noDblL (indentKids lvl cs) = true
  | lvl, .nil, _ => rfl
  | lvl, .cons (.mk t a x kids tl) .nil, h => by
    simp only [noDblL, Bool.and_eq_true] at h
    obtain ⟨⟨⟨hx, htl⟩, hkids⟩, -⟩ := h
    simp only [indentKids]
    have hind := noDbl_ind_E (lvl + 1) (.mk t a x kids tl) (by
      simp [noDblE, hx, hkids])
    cases hE : indentE (lvl + 1) (.mk t a x kids tl) with
    | mk t2 a2 x2 kids2 tl2 =>
      rw [hE] at hind
      simp only [noDblE, Bool.and_eq_true] at hind
      simp only [Elem.withTail, noDblL, Bool.and_eq_true]
      have htl2 : (Elem.mk t a x kids tl).tail = tl := rfl
      rw [htl2]
      exact ⟨⟨⟨hind.1, noDbl_reblank tl lvl htl⟩, hind.2⟩, trivial⟩
  | lvl, .cons (.mk t a x kids tl) (.cons d rest), h => by
    simp only [noDblL, Bool.and_eq_true] at h
    obtain ⟨⟨⟨hx, htl⟩, hkids⟩, hrest⟩ := h
    simp only [indentKids]
    have hind := noDbl_ind_E (lvl + 1) (.mk t a x kids tl) (by
      simp [noDblE, hx, hkids])
    cases hE : indentE (lvl + 1) (.mk t a x kids tl) with
    | mk t2 a2 x2 kids2 tl2 =>
      rw [hE] at hind
      simp only [noDblE, Bool.and_eq_true] at hind
      simp only [Elem.withTail, noDblL, Bool.and_eq_true]
      have htl2 : (Elem.mk t a x kids tl).tail = tl := rfl
      rw [htl2]
      exact ⟨⟨⟨hind.1, noDbl_reblank tl (lvl + 1) htl⟩, hind.2⟩,
        noDbl_ind_L lvl (.cons d rest) hrest⟩
end

mutual
theorem noDbl_fix_E : ∀ e : Elem, noDblE e = true → noDblE (fixAllE e) = true
  | .mk tag a x kids tl, h => by
    simp only [noDblE, Bool.and_eq_true] at h
    obtain ⟨hx, hkids⟩ := h
    simp only [fixAllE]
    cases hF : fixAllL kids with
    | nil => simp [noDblE, noDblL, hx]
    | cons c rest =>
      have hFall : noDblL (fixAllL kids) = true := noDbl_fix_L kids hkids
      rw [hF] at hFall
      cases c with
      | mk t2 a2 x2 kids2 tl2 =>
        simp only [noDblL, Bool.and_eq_true] at hFall
        obtain ⟨⟨⟨hx2, htl2⟩, hkids2⟩, hrest2⟩ := hFall
        simp only []
        by_cases hq : tag = "pre" ∧ (Elem.mk t2 a2 x2 kids2 tl2).tag = "code"
        · rw [if_pos hq]
          simp only [noDblE, Elem.withTail, noDblL, Bool.and_eq_true]
          exact ⟨rfl, ⟨⟨hx2, by decide⟩, hkids2⟩, hrest2⟩
        · rw [if_neg hq]
          simp only [noDblE, noDblL, Bool.and_eq_true]
          exact ⟨hx, ⟨⟨hx2, htl2⟩, hkids2⟩, hrest2⟩
theorem noDbl_fix_L : ∀ cs : ElemList, noDblL cs = true → noDblL (fixAllL cs) = true
  | .nil, _ => rfl
  | .cons (.mk t a x kids tl) rest, h => by
    simp only [noDblL, Bool.and_eq_true] at h
    obtain ⟨⟨⟨hx, htl⟩, hkids⟩, hrest⟩ := h
    rw [fixAllL_cons]
    have hE := noDbl_fix_E (.mk t a x kids tl) (by simp [noDblE, hx, hkids])
    cases hF : fixAllE (.mk t a x kids tl) with
    | mk t2 a2 x2 kids2 tl2 =>
      rw [hF] at hE
      simp only [noDblE, Bool.and_eq_true] at hE
      have htail : tl2 = tl := by
        have := fixAllE_tail (.mk t a x kids tl)
        rw [hF] at this
        exact this
      simp only [noDblL, Bool.and_eq_true]
      rw [htail]
      exact ⟨⟨⟨hE.1, htl⟩, hE.2⟩, noDbl_fix_L rest hrest⟩
end

theorem indentE_withTail (lvl : Nat) (e : Elem) (z : Option String) :
    indentE lvl (e.withTail z) = (indentE lvl e).withTail z := by
  cases e with
  | mk t a x kids tl =>
    cases kids with
    | nil => rfl
    | cons c rest => rfl

theorem fixAllE_withTail (e : Elem) (z : Option String) :
    fixAllE (e.withTail z) = (fixAllE e).withTail z := by
  cases e with
  | mk t a x kids tl =>
    simp only [Elem.withTail, fixAllE]
    cases fixAllL kids with
    | nil => rfl
    | cons c rest =>
      simp only []
      by_cases hq : t = "pre" ∧ c.tag = "code"
      · rw [if_pos hq, if_pos hq]
      · rw [if_neg hq, if_neg hq]

theorem roundE_withTail (lvl : Nat) (e : Elem) (z : Option String) :
    roundE lvl (e.withTail z) = (roundE lvl e).withTail z := by
  unfold roundE
  rw [indentE_withTail, fixAllE_withTail]

theorem roundE_tag (lvl : Nat) (e : Elem) : (roundE lvl e).tag = e.tag := by
  unfold roundE
  rw [fixAllE_tag, indentE_tag]

theorem reblank_idem (x : Option String) (k : Nat) :
    reblank (reblank x k) k = reblank x k := by
  by_cases hb : blankOpt x = true
  · unfold reblank
    rw [if_pos hb, if_pos (padStr_blank k)]
  · unfold reblank
    rw [if_neg hb, if_neg hb]

theorem fixIndentKids_eq_adjRound : ∀ (lvl : Nat) (cs : ElemList),
    fixAllL (indentKids lvl cs) = adjRound lvl cs
  | lvl, .nil => rfl
  | lvl, .cons c .nil => by
    simp only [indentKids, adjRound, fixAllL_cons, fixAllE_withTail]
    rfl
  | lvl, .cons c (.cons d rest) => by
    simp only [indentKids, adjRound, fixAllL_cons, fixAllE_withTail]
    rw [fixIndentKids_eq_adjRound lvl (.cons d rest)]
    rfl

theorem adjRound_shape (lvl : Nat) (d : Elem) (rest : ElemList) :
    ∃ d' rest', adjRound lvl (.cons d rest) = .cons d' rest' := by
  cases rest with
  | nil => exact ⟨_, _, rfl⟩
  | cons e rest2 => exact ⟨_, _, rfl⟩

theorem roundE_cons (lvl : Nat) (tag : String) (a : List (String × String))
    (x : Option String) (c0 : Elem) (rest0 : ElemList) (tl : Option String) :
    roundE lvl (.mk tag a x (.cons c0 rest0) tl) =
      (match adjRound lvl (.cons c0 rest0) with
       | .cons h1 r1 =>
         if tag = "pre" ∧ h1.tag = "code" then
           .mk tag a none (.cons (h1.withTail (some "\n")) r1) tl
         else .mk tag a (reblank x (lvl + 1)) (.cons h1 r1) tl
       | .nil => .mk tag a (reblank x (lvl + 1)) .nil tl) := by
  show fixAllE (indentE lvl (.mk tag a x (.cons c0 rest0) tl)) = _
  simp only [indentE, fixAllE, fixIndentKids_eq_adjRound]

mutual
theorem roundE_idem : ∀ (lvl : Nat) (e : Elem), roundE lvl (roundE lvl e) = roundE lvl e
  | lvl, .mk tag a x .nil tl => by
    have h : roundE lvl (.mk tag a x .nil tl) = .mk tag a x .nil tl := rfl
    rw [h, h]
  | lvl, .mk tag a x (.cons c0 .nil) tl => by
    rw [roundE_cons]
    simp only [adjRound]
    by_cases hq : tag = "pre" ∧
        ((roundE (lvl + 1) c0).withTail (reblank c0.tail lvl)).tag = "code"
    · rw [if_pos hq, Elem.withTail_withTail]
      rw [roundE_cons]
      simp only [adjRound, Elem.tail_withTail, roundE_withTail,
        roundE_idem (lvl + 1) c0, Elem.withTail_withTail]
      have hq2 : tag = "pre" ∧
          ((roundE (lvl + 1) c0).withTail (reblank (some "\n") lvl)).tag = "code" := by
        rw [Elem.tag_withTail]
        rw [Elem.tag_withTail] at hq
        exact hq
      rw [if_pos hq2]
    · rw [if_neg hq]
      rw [roundE_cons]
      simp only [adjRound, Elem.tail_withTail, roundE_withTail,
        roundE_idem (lvl + 1) c0, Elem.withTail_withTail, reblank_idem]
      rw [if_neg hq]
  | lvl, .mk tag a x (.cons c0 (.cons d0 rest0)) tl => by
    rw [roundE_cons]
    simp only [adjRound]
    obtain ⟨d', rest', hshape⟩ := adjRound_shape lvl d0 rest0
    rw [hshape]
    have hr : adjRound lvl (.cons d' rest') = .cons d' rest' := by
      rw [← hshape, adjRound_idem lvl (.cons d0 rest0), hshape]
    by_cases hq : tag = "pre" ∧
        ((roundE (lvl + 1) c0).withTail (reblank c0.tail (lvl + 1))).tag = "code"
    · rw [if_pos hq, Elem.withTail_withTail]
      rw [roundE_cons]
      simp only [adjRound, Elem.tail_withTail, roundE_withTail,
        roundE_idem (lvl + 1) c0, Elem.withTail_withTail, hr]
      have hq2 : tag = "pre" ∧
          ((roundE (lvl + 1) c0).withTail (reblank (some "\n") (lvl + 1))).tag = "code" := by
        rw [Elem.tag_withTail]
        rw [Elem.tag_withTail] at hq
        exact hq
      rw [if_pos hq2]
    · rw [if_neg hq]
      rw [roundE_cons]
      simp only [adjRound, Elem.tail_withTail, roundE_withTail,
        roundE_idem (lvl + 1) c0, Elem.withTail_withTail, reblank_idem, hr]
      rw [if_neg hq]
theorem adjRound_idem : ∀ (lvl : Nat) (cs : ElemList),
    adjRound lvl (adjRound lvl cs) = adjRound lvl cs
  | lvl, .nil => rfl
  | lvl, .cons c .nil => by
    simp only [adjRound, Elem.tail_withTail, roundE_withTail,
      roundE_idem (lvl + 1) c, Elem.withTail_withTail, reblank_idem]
  | lvl, .cons c (.cons d rest) => by
    simp only [adjRound]
    obtain ⟨d', rest', hshape⟩ := adjRound_shape lvl d rest
    rw [hshape]
    simp only [adjRound, Elem.tail_withTail, roundE_withTail,
      roundE_idem (lvl + 1) c, Elem.withTail_withTail, reblank_idem]
    rw [show adjRound lvl (.cons d' rest') = .cons d' rest' by
      rw [← hshape, adjRound_idem lvl (.cons d rest), hshape]]
end

theorem noDbl_fixPreTop (e : Elem) (h : noDblE e = true) :
    noDblE (fixPreTop e) = true := by
  cases e with
  | mk t a x kids tl =>
    simp only [noDblE, Bool.and_eq_true] at h
    simp only [fixPreTop, Elem.children, Elem.withChildren, noDblE, Bool.and_eq_true]
    exact ⟨h.1, noDbl_fix_L kids h.2⟩

theorem indentFix_idem (e : Elem) :
    fixPreTop (indentE 0 (fixPreTop (indentE 0 e))) = fixPreTop (indentE 0 e) := by
  cases e with
  | mk tag a x kids tl =>
    cases kids with
    | nil => rfl
    | cons c0 rest0 =>
      have h1 : fixPreTop (indentE 0 (.mk tag a x (.cons c0 rest0) tl)) =
          .mk tag a (reblank x 1) (adjRound 0 (.cons c0 rest0)) tl := by
        simp only [indentE, fixPreTop, Elem.withChildren, Elem.children,
          fixIndentKids_eq_adjRound]
      rw [h1]
      obtain ⟨c', rest', hsh⟩ := adjRound_shape 0 c0 rest0
      rw [hsh]
      have h2 : fixPreTop (indentE 0 (.mk tag a (reblank x 1) (.cons c' rest') tl)) =
          .mk tag a (reblank (reblank x 1) 1) (adjRound 0 (.cons c' rest')) tl := by
        simp only [indentE, fixPreTop, Elem.withChildren, Elem.children,
          fixIndentKids_eq_adjRound]
      rw [h2, reblank_idem]
      rw [show adjRound 0 (.cons c' rest') = .cons c' rest' by
        rw [← hsh, adjRound_idem 0 (.cons c0 rest0), hsh]]

/-- C8 counterexample: on the well-formed document
`<html><body><p>a %%c:x%% b %%c:y%% c</p></body></html>` the formatter is
not idempotent — each pass consumes one annotation token (the extractor
consumes at most the first match per scan), so the second pass rewrites the
paragraph again and the outputs differ. -/
theorem c8_counterexample : formatTree (formatTree twoTokDoc) ≠ formatTree twoTokDoc := by
  decide

/-- C8 (amended): the formatter is idempotent on well-formed input whose
text and tail content is free of the `%%` marker (in particular, free of
annotation tokens): the token extractor is then inert and re-running
indentation and the `<pre><code>` rule on their own output is a no-op.  On
input still carrying a token, a second pass consumes a further token, so
byte-identical output is not guaranteed. -/
theorem c8_format_idempotent (e : Elem) (h : noDblE e = true) :
    formatTree (formatTree e) = formatTree e := by
  have hpm : ∀ u : Elem, noDblE u = true → formatTree u = fixPreTop (indentE 0 u) := by
    intro u hu
    unfold formatTree
    exact pm_id_E false _ (noDbl_fixPreTop _ (noDbl_ind_E 0 u hu))
  rw [hpm e h]
  rw [hpm _ (noDbl_fixPreTop _ (noDbl_ind_E 0 e h))]
  exact indentFix_idem e

/-- Witness for C8 (amended). -/
theorem c8_witness :
    noDblE plainDoc = true ∧ formatTree (formatTree plainDoc) = formatTree plainDoc :=
  ⟨by decide, c8_format_idempotent plainDoc (by decide)⟩
